import Mathlib

/-!
Shallow embedding of the rutio-tsdb time-series store (src/tsdb.js) and
verification of the frozen specification claims.

The embedding models the JavaScript source faithfully:
* JS runtime values given to the public API are modelled by `Value`
  (including `null`, `undefined` and non-finite numbers, since the source's
  `typeof`-based dispatch distinguishes them);
* the five type-partitioned SQL tables are modelled as in-memory lists of
  rows (`Table`, `DB`); SQL `SELECT ... ORDER BY` is modelled by filtering
  and a stable sort; `AUTO_INCREMENT` ids are modelled by a per-table
  counter; timestamps are modelled as integers (milliseconds, `Date.getTime`);
* nested JS objects produced by `convertToObject` are modelled by `JsVal`,
  in which a synthesized leaf is itself an object with keys `"value"` and
  `"timestamp"` — exactly as in the JS runtime, where `typeof` of such a
  leaf is `'object'`.
-/

namespace Tsdb

/-- JSON-representable data, the payload of array values.  The source stores
arrays as `JSON.stringify(value)` text and decodes with `JSON.parse`; for the
JSON-representable arrays modelled here that round trip is the identity, so
the stored form is modelled as the tree itself, and `Json.stringify` below is
used where the source measures the serialized length. -/
inductive Json where
  | jnum (n : Int)
  | jstr (s : String)
  | jbool (b : Bool)
  | jnull
  | jarr (elems : List Json)
  | jobj (fields : List (String × Json))

/-- JSON string escaping as performed by `JSON.stringify` on a string value
(quotes, backslashes, control characters). -/
def jsonEscapeChar (c : Char) : String :=
  if c = '"' then "\\\""
  else if c = '\\' then "\\\\"
  else if c = '\n' then "\\n"
  else if c = '\t' then "\\t"
  else if c = '\r' then "\\r"
  else if c.toNat < 32 then "\\u00" ++ (Nat.toDigits 16 c.toNat).asString
  else String.singleton c

/-- Serialization of a JSON string literal. -/
def jsonEscape (s : String) : String :=
  "\"" ++ String.join (s.data.map jsonEscapeChar) ++ "\""

mutual

/-- Model of `JSON.stringify` on the JSON-representable values. -/
def Json.stringify : Json → String
  | .jnum n => toString n
  | .jstr s => jsonEscape s
  | .jbool b => if b then "true" else "false"
  | .jnull => "null"
  | .jarr elems => "[" ++ Json.stringifyList elems ++ "]"
  | .jobj fields => "\x7b" ++ Json.stringifyFields fields ++ "\x7d"

/-- Comma-separated serialization of array elements. -/
def Json.stringifyList : List Json → String
  | [] => ""
  | [j] => Json.stringify j
  | j :: rest => Json.stringify j ++ "," ++ Json.stringifyList rest

/-- Comma-separated serialization of object members. -/
def Json.stringifyFields : List (String × Json) → String
  | [] => ""
  | [(k, j)] => jsonEscape k ++ ":" ++ Json.stringify j
  | (k, j) :: rest => jsonEscape k ++ ":" ++ Json.stringify j ++ "," ++ Json.stringifyFields rest

end

/-- A JavaScript runtime value as passed to the store's insert API.  A
non-finite number (NaN or ±Infinity) is `nan`: it has `typeof === 'number'`
but fails `isFinite`.  Arrays carry JSON-representable payloads (see `Json`). -/
inductive Value where
  | num (n : Int)
  | nan
  | str (s : String)
  | bool (b : Bool)
  | date (ms : Int)
  | arr (elems : List Json)
  | obj (fields : List (String × Value))
  | null
  | undef

/-- JavaScript `typeof` for the modelled values.  Note `typeof null` and
`typeof` of a `Date` or an array are all `'object'`. -/
def typeofJs : Value → String
  | .num _ => "number"
  | .nan => "number"
  | .str _ => "string"
  | .bool _ => "boolean"
  | .date _ => "object"
  | .arr _ => "object"
  | .obj _ => "object"
  | .null => "object"
  | .undef => "undefined"

/-- JavaScript truthiness of a value (`!v` is the negation of this). -/
def truthy : Value → Bool
  | .num n => n ≠ 0
  | .nan => false
  | .str s => s ≠ ""
  | .bool b => b
  | .date _ => true
  | .arr _ => true
  | .obj _ => true
  | .null => false
  | .undef => false

mutual

/-- The JS value denoted by a JSON tree (as produced by `JSON.parse`). -/
def jsonToValue : Json → Value
  | .jnum n => .num n
  | .jstr s => .str s
  | .jbool b => .bool b
  | .jnull => .null
  | .jarr elems => .arr elems
  | .jobj fields => .obj (jsonFieldsToValue fields)

/-- Member-wise conversion of a JSON object's fields. -/
def jsonFieldsToValue : List (String × Json) → List (String × Value)
  | [] => []
  | (k, j) :: rest => (k, jsonToValue j) :: jsonFieldsToValue rest

end

/-- A node identifier: the source accepts a number or a bounded-length
string (`isNode`, src/tsdb.js lines 534-540). -/
inductive NodeId where
  | int (n : Int)
  | str (s : String)
deriving DecidableEq, Repr

/-- `MAX_ID_SIZE` from the source. -/
def MAX_ID_SIZE : Nat := 128
/-- `MAX_FIELD_SIZE` from the source. -/
def MAX_FIELD_SIZE : Nat := 512
/-- `MAX_STRING_SIZE` from the source. -/
def MAX_STRING_SIZE : Nat := 4096
/-- `MAX_ARRAY_SIZE` from the source. -/
def MAX_ARRAY_SIZE : Nat := 16384

/-- `isNode` (src/tsdb.js lines 534-540): a number, or a string with
`0 < length < MAX_ID_SIZE`. -/
def isNode : NodeId → Bool
  | .int _ => true
  | .str s => 0 < s.length && s.length < MAX_ID_SIZE

/-- The five value-type partitions, in the fixed `Object.keys(TS_TABLES)`
order of the source's `TS_TABLES` literal. -/
inductive TsType where
  | string
  | number
  | array
  | date
  | boolean
deriving DecidableEq, Repr

/-- Partition iteration order: `Object.keys(TS_TABLES)` =
string, number, array, date, boolean. -/
def tsTypes : List TsType := [.string, .number, .array, .date, .boolean]

/-- A stored `value` column content.  Each partition's column representation:
number → DOUBLE (`sNum`), string → TEXT (`sText`), array → TEXT holding JSON
(modelled as the parsed tree, `sJson`), date → BIGINT (`sInt`),
boolean → TINYINT (`sTiny`). -/
inductive Stored where
  | sNum (x : Int)
  | sText (s : String)
  | sJson (elems : List Json)
  | sInt (n : Int)
  | sTiny (n : Nat)

/-- One row of a partition table (schema in `createTable`). -/
structure Row where
  id : Nat
  node : NodeId
  field : String
  value : Stored
  timestamp : Int
  latest : Nat

/-- One partition table: its rows in insertion order and the next
`AUTO_INCREMENT` id. -/
structure Table where
  rows : List Row
  nextId : Nat

/-- The empty table. -/
def Table.empty : Table := ⟨[], 0⟩

/-- The whole store: the five partition tables. -/
structure DB where
  stringT : Table
  numberT : Table
  arrayT : Table
  dateT : Table
  booleanT : Table

/-- The empty store. -/
def emptyDB : DB := ⟨Table.empty, Table.empty, Table.empty, Table.empty, Table.empty⟩

/-- The table holding a given value type (`getTableForType`). -/
def getTable (db : DB) : TsType → Table
  | .string => db.stringT
  | .number => db.numberT
  | .array => db.arrayT
  | .date => db.dateT
  | .boolean => db.booleanT

/-- Replace the table of a given value type. -/
def setTable (db : DB) : TsType → Table → DB
  | .string, t => { db with stringT := t }
  | .number, t => { db with numberT := t }
  | .array, t => { db with arrayT := t }
  | .date, t => { db with dateT := t }
  | .boolean, t => { db with booleanT := t }

/-- Error taxonomy of the modelled operations (the source throws message
objects; each distinct throw site is one constructor). -/
inductive Err where
  | invalidTimestamp
  | invalidNode
  | invalidField
  | valueTooLarge
  | unsupportedType
  | typeError
  | notAnObject
  | invalidLimit
  | structuralConflict
  | cannotConvert
  | confirmationRequired
  | unmodelledMutation
deriving DecidableEq, Repr

/- ### Write path: the latest-pointer maintainer and the insert fan-out -/

/-- `morerecents` (src/tsdb.js 451-454): rows of the table with the same
node and field, a strictly greater timestamp, and `latest=1`. -/
def morerecents (t : Table) (node : NodeId) (field : String) (timestamp_ms : Int) : List Row :=
  t.rows.filter fun r =>
    decide (r.node = node ∧ timestamp_ms < r.timestamp ∧ r.field = field ∧ r.latest = 1)

/-- `checkIsLatest` (src/tsdb.js 456-463): `1` when no strictly more recent
`latest=1` row exists, else `0`. -/
def checkIsLatest (t : Table) (node : NodeId) (field : String) (timestamp_ms : Int) : Nat :=
  if (morerecents t node field timestamp_ms).length > 0 then 0 else 1

/-- `setIsLatest` (src/tsdb.js 465-470): when the `latest` argument is
truthy, demote every other `latest=1` row of the same `(node, field)` with a
different id.  The argument is an `Option` because one call site
(`insertCheckedDate`) passes no fifth argument at all: JavaScript binds
`undefined`, which is falsy, modelled by `none`. -/
def setIsLatest (t : Table) (node : NodeId) (field : String) (id : Nat) (latest : Option Nat) : Table :=
  if latest.getD 0 ≠ 0 then
    { t with rows := t.rows.map fun r =>
        if r.node = node ∧ r.field = field ∧ r.latest = 1 ∧ r.id ≠ id then
          { r with latest := 0 }
        else r }
  else t

/-- Model of `sqlapi.insert`: append a row with the next auto-increment id
and return the generated id. -/
def insertRow (t : Table) (node : NodeId) (field : String) (value : Stored) (timestamp : Int)
    (latest : Nat) : Table × Nat :=
  ({ rows := t.rows ++ [⟨t.nextId, node, field, value, timestamp, latest⟩],
     nextId := t.nextId + 1 }, t.nextId)

/-- Shared body of `insertCheckedNumber` / `insertCheckedBoolean` /
`insertCheckedString` / `insertCheckedArray` (src/tsdb.js 472-511): check
latest, insert the row, demote prior holders.  The source calls
`setIsLatest(table, node, field, result, latest)` at those four sites; here
the computed `latest` is passed as `some latest`.  (At two of them —
number and boolean — the `setIsLatest` promise is not awaited; absent
concurrent operations its update is modelled as applied.) -/
def insertCheckedRow (t : Table) (node : NodeId) (field : String) (value : Stored)
    (timestamp_ms : Int) : Table :=
  let latest := checkIsLatest t node field timestamp_ms
  let (t1, id) := insertRow t node field value timestamp_ms latest
  setIsLatest t1 node field id (some latest)

/-- `insertCheckedNumber` (src/tsdb.js 472-479). -/
def insertCheckedNumber (db : DB) (node : NodeId) (field : String) (value : Int)
    (timestamp_ms : Int) : DB :=
  setTable db .number (insertCheckedRow (getTable db .number) node field (.sNum value) timestamp_ms)

/-- `insertCheckedBoolean` (src/tsdb.js 481-488): the value is stored as
`value ? 1 : 0`. -/
def insertCheckedBoolean (db : DB) (node : NodeId) (field : String) (value : Bool)
    (timestamp_ms : Int) : DB :=
  setTable db .boolean
    (insertCheckedRow (getTable db .boolean) node field (.sTiny (if value then 1 else 0)) timestamp_ms)

/-- `insertCheckedString` (src/tsdb.js 490-499): strings longer than
`MAX_STRING_SIZE` are rejected before any write. -/
def insertCheckedString (db : DB) (node : NodeId) (field : String) (value : String)
    (timestamp_ms : Int) : DB × Option Err :=
  if value.length > MAX_STRING_SIZE then (db, some .valueTooLarge)
  else
    (setTable db .string (insertCheckedRow (getTable db .string) node field (.sText value) timestamp_ms),
     none)

/-- `insertCheckedArray` (src/tsdb.js 501-511): the JSON representation is
length-checked against `MAX_ARRAY_SIZE`, then stored.  The stored TEXT is
`JSON.stringify([elems])`, modelled as the tree itself (see `Json`). -/
def insertCheckedArray (db : DB) (node : NodeId) (field : String) (value : List Json)
    (timestamp_ms : Int) : DB × Option Err :=
  if (Json.stringify (.jarr value)).length > MAX_ARRAY_SIZE then (db, some .valueTooLarge)
  else
    (setTable db .array (insertCheckedRow (getTable db .array) node field (.sJson value) timestamp_ms),
     none)

/-- `insertCheckedDate` (src/tsdb.js 513-521).  Unlike the other four
insert-checked functions, the source calls `setIsLatest(table, node, field,
result)` with NO fifth argument, so `latest` is `undefined` (falsy) inside
`setIsLatest` and the demotion of prior `latest=1` rows never executes;
this is modelled by passing `none`. -/
def insertCheckedDate (db : DB) (node : NodeId) (field : String) (value_ms : Int)
    (timestamp_ms : Int) : DB :=
  let t := getTable db .date
  let latest := checkIsLatest t node field timestamp_ms
  let (t1, id) := insertRow t node field (.sInt value_ms) timestamp_ms latest
  setTable db .date (setIsLatest t1 node field id none)

/-- `Object.keys(value)` together with the member values, as used by
`insertCheckedObject` (src/tsdb.js 524-532).  `Object.keys` of `null` or
`undefined` throws a `TypeError`; of a number, boolean or `Date` it yields
no keys; of an array it yields the element indices; of an object its own
enumerable keys. -/
def objectKeys : Value → Except Err (List (String × Value))
  | .obj fields => .ok fields
  | .null => .error .typeError
  | .undef => .error .typeError
  | .nan => .ok []
  | .num _ => .ok []
  | .bool _ => .ok []
  | .date _ => .ok []
  | .arr elems => .ok (((List.range elems.length).zip elems).map fun p => (toString p.1, jsonToValue p.2))
  | .str s => .ok (((List.range s.data.length).zip s.data).map fun p => (toString p.1, .str (String.singleton p.2)))

mutual

/-- `insert` (src/tsdb.js 542-572).  The timestamp parameter is typed as an
instant (milliseconds), which models the `isDate(timestamp)` guard.  The
dispatch chain mirrors the source: finite number / string / boolean /
`isDate` / `Array.isArray`, and then the source tests
`typeof(value == 'object')` — the `typeof` of a comparison RESULT, which is
the string `'boolean'`, always truthy — so every remaining value (including
`NaN`, `null`, `undefined`) takes the object branch and the final
`UnsupportedType` throw is unreachable.  That branch calls
`insertCheckedObject` (= `Object.keys` then member inserts, see
`insertFields`) without `await`, so its rejection is not propagated to the
caller: the nested writes are modelled as applied and its error is
discarded.  The degenerate object-branch values are written out here:
`Object.keys` of `NaN` is `[]` (no member writes), and `Object.keys` of
`null`/`undefined` throws a `TypeError` that, unawaited, the caller never
sees — in all three cases the store is unchanged and no error is
reported. -/
def insert (db : DB) (node : NodeId) (field : String) (v : Value) (ts : Int) : DB × Option Err :=
  if ¬ isNode node then (db, some .invalidNode)
  else if field = "" ∨ field.length > MAX_FIELD_SIZE then (db, some .invalidField)
  else
    match v with
    | .num x => (insertCheckedNumber db node field x ts, none)
    | .str s => insertCheckedString db node field s ts
    | .bool b => (insertCheckedBoolean db node field b ts, none)
    | .date ms => (insertCheckedDate db node field ms ts, none)
    | .arr elems => insertCheckedArray db node field elems ts
    | .obj fields => ((insertFields db node field fields ts).1, none)
    | .nan => (db, none)
    | .null => (db, none)
    | .undef => (db, none)

/-- Member-wise elaboration of `insertCheckedObject` (src/tsdb.js 524-532):
insert each member at `field + "." + key`.  All member inserts are issued
and all complete (`Promise.all`); a failed member does not stop the others
and the first error is the reported one. -/
def insertFields (db : DB) (node : NodeId) (field : String) (kvs : List (String × Value))
    (ts : Int) : DB × Option Err :=
  match kvs with
  | [] => (db, none)
  | (k, w) :: rest =>
    let r1 := insert db node (field ++ "." ++ k) w ts
    let r2 := insertFields r1.1 node field rest ts
    (r2.1, r1.2 <|> r2.2)

end

/-- `insertCheckedObject` (src/tsdb.js 524-532): enumerate the members with
`Object.keys` and insert each at `field + "." + key`. -/
def insertCheckedObject (db : DB) (node : NodeId) (field : String) (v : Value) (ts : Int) :
    DB × Option Err :=
  match objectKeys v with
  | .error e => (db, some e)
  | .ok kvs => insertFields db node field kvs ts

/-- `insertObject` (src/tsdb.js 667-678): the public entry point.  The
validation is `typeof(value) !== 'object'`; note `typeof null` IS
`'object'`, so `null` passes it.  The base path is the empty string. -/
def insertObject (db : DB) (node : NodeId) (v : Value) (ts : Int) : DB × Option Err :=
  if typeofJs v ≠ "object" then (db, some .notAnObject)
  else insertCheckedObject db node "" v ts

/- ### Read path: unflatten, snapshot synthesis, series, existence, removal -/

/-- A nested JavaScript runtime value as built by `convertToObject`.  A
synthesized leaf is itself a plain object with keys `"value"` and
`"timestamp"`; `jsTypeof` of such a leaf is `'object'`. -/
inductive JsVal where
  | num (n : Int)
  | str (s : String)
  | bool (b : Bool)
  | null
  | date (ms : Int)
  | arr (elems : List JsVal)
  | obj (fields : List (String × JsVal))

mutual

/-- The runtime value of a parsed JSON tree (`JSON.parse` of the stored
array text). -/
def jsonToJsVal : Json → JsVal
  | .jnum n => .num n
  | .jstr s => .str s
  | .jbool b => .bool b
  | .jnull => .null
  | .jarr elems => .arr (jsonListToJsVal elems)
  | .jobj fields => .obj (jsonFieldsToJsVal fields)

/-- Element-wise conversion of a JSON array. -/
def jsonListToJsVal : List Json → List JsVal
  | [] => []
  | j :: rest => jsonToJsVal j :: jsonListToJsVal rest

/-- Member-wise conversion of a JSON object. -/
def jsonFieldsToJsVal : List (String × Json) → List (String × JsVal)
  | [] => []
  | (k, j) :: rest => (k, jsonToJsVal j) :: jsonFieldsToJsVal rest

end

/-- JavaScript `typeof` on the synthesized runtime values: `null`, dates,
arrays and plain objects are all `'object'`. -/
def jsTypeof : JsVal → String
  | .num _ => "number"
  | .str _ => "string"
  | .bool _ => "boolean"
  | .null => "object"
  | .date _ => "object"
  | .arr _ => "object"
  | .obj _ => "object"

/-- First-match association lookup (JS property read on the modelled
objects). -/
def assocGet {β : Type} : List (String × β) → String → Option β
  | [], _ => none
  | (k', v') :: rest, k => if k' = k then some v' else assocGet rest k

/-- JS property assignment on the modelled objects: replace in place when
the key exists, else append (JS property insertion order). -/
def assocSet {β : Type} : List (String × β) → String → β → List (String × β)
  | [], k, v => [(k, v)]
  | (k', v') :: rest, k, v =>
    if k' = k then (k, v) :: rest else (k', v') :: assocSet rest k v

/-- JavaScript `String.prototype.split('.')`, defined over the character
list: maximal dot-free runs, with empty runs kept (so `"" → [""]`,
`"." → ["", ""]`, `".a.b" → ["", "a", "b"]`). -/
def splitDotAux : List Char → List Char → List String
  | [], acc => [String.mk acc.reverse]
  | c :: cs, acc =>
    if c = '.' then String.mk acc.reverse :: splitDotAux cs []
    else splitDotAux cs (c :: acc)

/-- `key.split('.')` on a string. -/
def splitDot (s : String) : List String := splitDotAux s.data []

/-- Lexicographic code-unit comparison of character lists, as JS
`Array.prototype.sort()` compares strings. -/
def charsLt : List Char → List Char → Bool
  | [], [] => false
  | [], _ :: _ => true
  | _ :: _, [] => false
  | a :: as, b :: bs =>
    if a.toNat < b.toNat then true
    else if b.toNat < a.toNat then false
    else charsLt as bs

/-- String order used to sort the field-path keys (`keys.sort()`). -/
def strLe (a b : String) : Bool := ! charsLt b.data a.data

/-- One entry of the field-path mapping consumed by `convertToObject`:
`{value, type, timestamp}` as assembled by `synthesizeObjectParameterized`. -/
structure MapEntry where
  value : Stored
  type : TsType
  timestamp : Int

/-- The raw JS value a query row's `value` column holds for each stored
representation (the array partition's TEXT column holds the JSON text,
whose parse is the tree). -/
def storedRawJs : Stored → JsVal
  | .sNum x => .num x
  | .sText s => .str s
  | .sJson elems => .arr (jsonListToJsVal elems)
  | .sInt n => .num n
  | .sTiny n => .num n

/-- An integer reading of a stored value (`new Date(value)` on a BIGINT
column).  Only the `date` partition's `sInt` occurs there in well-formed
stores; the other readings are the JS numeric coercions of the underlying
column value, with text coercing to `0` as a placeholder (unreachable on
stores produced by the write path). -/
def storedAsInt : Stored → Int
  | .sInt n => n
  | .sNum x => x
  | .sTiny n => n
  | .sText _ => 0
  | .sJson _ => 0

/-- Truthiness of the raw column value (`value ? true : false` on the
boolean partition's TINYINT). -/
def storedTruthy : Stored → Bool
  | .sTiny n => n ≠ 0
  | .sNum x => x ≠ 0
  | .sInt n => n ≠ 0
  | .sText s => s ≠ ""
  | .sJson _ => true

/-- The decoded leaf value of one map entry, per the type-tag branches of
`convertToObject` (src/tsdb.js 599-610): number and string are taken as-is,
boolean is `value ? true : false`, date is `new Date(value)`, array is
`JSON.parse(value)`. -/
def decodeLeafValue (ty : TsType) (v : Stored) : JsVal :=
  match ty with
  | .number => storedRawJs v
  | .string => storedRawJs v
  | .boolean => .bool (storedTruthy v)
  | .date => .date (storedAsInt v)
  | .array =>
    match v with
    | .sJson elems => .arr (jsonListToJsVal elems)
    | other => storedRawJs other

/-- The leaf object `{value, timestamp}` assigned by `convertToObject` for
one map entry (`timestamp` is `new Date(ms)`). -/
def leafFor (e : MapEntry) : JsVal :=
  .obj [("value", decodeLeafValue e.type e.value), ("timestamp", .date e.timestamp)]

/-- The imperative walk of `convertToObject` for one key (src/tsdb.js
577-608): descend through the interior path segments, creating missing
objects, then assign the leaf at the last segment.

The source's conflict guard on an existing entry is
`typeof(o[field]) !== 'object'`: it throws only for number/string/boolean
values.  A synthesized leaf is an OBJECT `{value, timestamp}`, so the guard
passes and the walk descends INTO the leaf (the structural-conflict throw
cannot fire on synthesized leaves).  A `Date`, array or `null` encountered
on the walk also has `typeof === 'object'`; in JS the walk would then set
properties on that non-plain object, which this model cannot represent and
reports as `unmodelledMutation` (no input in this development reaches it). -/
def setPath : List (String × JsVal) → List String → String → JsVal →
    Except Err (List (String × JsVal))
  | o, [], last, leaf => .ok (assocSet o last leaf)
  | o, f :: rest, last, leaf =>
    match assocGet o f with
    | some (.obj l) => do
      let l' ← setPath l rest last leaf
      .ok (assocSet o f (.obj l'))
    | some (.num _) => .error .structuralConflict
    | some (.str _) => .error .structuralConflict
    | some (.bool _) => .error .structuralConflict
    | some (.date _) => .error .unmodelledMutation
    | some (.arr _) => .error .unmodelledMutation
    | some .null => .error .unmodelledMutation
    | none => do
      let l' ← setPath [] rest last leaf
      .ok (assocSet o f (.obj l'))

/-- Insertion of one sorted key into the accumulating result object:
`path = key.split('.')`, the walked interior segments are
`path[1] .. path[length-2]` (the loop starts at index 1, skipping the
leading empty segment of a dot-prefixed key), and the leaf lands at
`path[length-1]`. -/
def convertStep (m : List (String × MapEntry)) (o : List (String × JsVal)) (key : String) :
    Except Err (List (String × JsVal)) :=
  match assocGet m key with
  | none => .ok o
  | some e =>
    let path := splitDot key
    setPath o (path.drop 1).dropLast (path.getLastD "") (leafFor e)

/-- `convertToObject` (src/tsdb.js 574-613): process the keys in sorted
order, building the nested result.  (The `Cannot convert` throw for an
unknown type tag is unreachable here because `MapEntry.type` is one of the
five partition tags.) -/
def convertToObject (m : List (String × MapEntry)) : Except Err JsVal := do
  let keys := List.insertionSort (fun a b : String => strLe a b = true) (m.map Prod.fst)
  let o ← keys.foldlM (convertStep m) []
  .ok (.obj o)

/-- The rows of one partition matching a node and a row filter, in
ascending-timestamp order (`SELECT field, value, timestamp ... WHERE node=?
AND <condition> ORDER BY timestamp ASC`); ties keep insertion order
(stable sort). -/
def partitionRows (t : Table) (node : NodeId) (cond : Row → Bool) : List Row :=
  List.insertionSort (fun a b : Row => a.timestamp ≤ b.timestamp)
    (t.rows.filter fun r => decide (r.node = node) && cond r)

/-- Merge one partition's ascending rows into the field-path map: each row
overwrites the entry at its field (`mapLatest[row.field] = {value, type,
timestamp}`). -/
def mergeStep (ty : TsType) (m : List (String × MapEntry)) (rows : List Row) :
    List (String × MapEntry) :=
  rows.foldl (fun acc r => assocSet acc r.field ⟨r.value, ty, r.timestamp⟩) m

/-- The merged field-path map of `synthesizeObjectParameterized`
(src/tsdb.js 616-639): the five partitions are queried and their results
folded into one map.  The partition sub-results land in promise-creation
order — `Object.keys(TS_TABLES)` order — which models the in-order
completion of the concurrent queries. -/
def synthesizeMap (db : DB) (node : NodeId) (cond : Row → Bool) : List (String × MapEntry) :=
  tsTypes.foldl (fun m ty => mergeStep ty m (partitionRows (getTable db ty) node cond)) []

/-- The row filter of `synthesizeObject`: `latest<>0`. -/
def condLatest (r : Row) : Bool := decide (r.latest ≠ 0)

/-- The row filter of `synthesizeObjectAt`: `timestamp<=T`. -/
def condAt (date_ms : Int) (r : Row) : Bool := decide (r.timestamp ≤ date_ms)

/-- `synthesizeObjectParameterized` (src/tsdb.js 616-639): validate the
node, merge the partitions, unflatten. -/
def synthesizeObjectParameterized (db : DB) (node : NodeId) (cond : Row → Bool) :
    Except Err JsVal :=
  if ¬ isNode node then .error .invalidNode
  else convertToObject (synthesizeMap db node cond)

/-- `synthesizeObject` (src/tsdb.js 651-658): current state, filter
`latest<>0`. -/
def synthesizeObject (db : DB) (node : NodeId) : Except Err JsVal :=
  synthesizeObjectParameterized db node condLatest

/-- `synthesizeObjectAt` (src/tsdb.js 641-649): state as of an instant,
filter `timestamp<=date_ms`. -/
def synthesizeObjectAt (db : DB) (node : NodeId) (date_ms : Int) : Except Err JsVal :=
  synthesizeObjectParameterized db node (condAt date_ms)

/-- One decoded entry returned by `getSeries` / `search`: the decoded value
and the row timestamp (returned as `new Date(ms)`, modelled by the
instant). -/
structure SeriesEntry where
  value : JsVal
  timestamp : Int

/-- `updateValueTypes` (src/tsdb.js 680-690) applied to one row: array
values are `JSON.parse`d, date values become `new Date(value)`, boolean
values become `value ? true : false`; number and string stay raw. -/
def decodeSeriesRow (ty : TsType) (r : Row) : SeriesEntry :=
  match ty with
  | .array => ⟨(match r.value with | .sJson elems => .arr (jsonListToJsVal elems) | v => storedRawJs v), r.timestamp⟩
  | .date => ⟨.date (storedAsInt r.value), r.timestamp⟩
  | .boolean => ⟨.bool (storedTruthy r.value), r.timestamp⟩
  | .number => ⟨storedRawJs r.value, r.timestamp⟩
  | .string => ⟨storedRawJs r.value, r.timestamp⟩

/-- One partition query of `getSeries`: `SELECT value, timestamp ... WHERE
node=? AND field=? AND timestamp <= ? ORDER BY timestamp DESC LIMIT ?`;
ties keep insertion order (stable sort). -/
def seriesQuery (t : Table) (node : NodeId) (field : String) (when_ms : Int) (limit : Int) :
    List Row :=
  (List.insertionSort (fun a b : Row => b.timestamp ≤ a.timestamp)
      (t.rows.filter fun r => decide (r.node = node ∧ r.field = field ∧ r.timestamp ≤ when_ms))).take
    limit.toNat

/-- The partition loop of `getSeries` (src/tsdb.js 757-772): return the
decoded rows of the first partition whose query is nonempty, else the empty
list. -/
def getSeriesLoop (db : DB) (node : NodeId) (field : String) (when_ms : Int) (limit : Int) :
    List TsType → List SeriesEntry
  | [] => []
  | ty :: rest =>
    let rows := seriesQuery (getTable db ty) node field when_ms limit
    if rows.isEmpty then getSeriesLoop db node field when_ms limit rest
    else rows.map (decodeSeriesRow ty)

/-- The `limit` validation of `getSeries` and `search` (src/tsdb.js
747-748): `!Number.isInteger(limit) || limit < 1 || limit > 10001` throws.
The parameter is typed as an integer, so the modelled acceptance condition
is `1 ≤ limit ∧ limit ≤ 10001` — note the source's own error message says
"less than 10001" yet the guard admits `10001`. -/
def limitOk (limit : Int) : Bool := decide (1 ≤ limit ∧ limit ≤ 10001)

/-- `getSeries` (src/tsdb.js 744-776): validate node and limit (field and
`when` are typed), then scan the partitions in the fixed
`Object.keys(TS_TABLES)` order. -/
def getSeries (db : DB) (node : NodeId) (field : String) (when_ms : Int) (limit : Int) :
    Except Err (List SeriesEntry) :=
  if ¬ isNode node then .error .invalidNode
  else if ¬ limitOk limit then .error .invalidLimit
  else .ok (getSeriesLoop db node field when_ms limit tsTypes)

/-- `exists` (src/tsdb.js 778-801; named `existsNode` here because `exists`
is reserved in Lean): true as soon as any partition has a row for the
node. -/
def existsNode (db : DB) (node : NodeId) : Except Err Bool :=
  if ¬ isNode node then .error .invalidNode
  else .ok (tsTypes.any fun ty =>
    ¬ ((getTable db ty).rows.filter fun r => decide (r.node = node)).isEmpty)

/-- `remove` (src/tsdb.js 806-826): the confirmation guard is `if (!sure)
throw`, i.e. JS truthiness of the `sure` argument, not equality with
`true`; then every row of the node is deleted from every partition. -/
def remove (db : DB) (node : NodeId) (sure : Value) : DB × Option Err :=
  if ¬ truthy sure then (db, some .confirmationRequired)
  else if ¬ isNode node then (db, some .invalidNode)
  else
    (tsTypes.foldl
      (fun acc ty =>
        let t := getTable acc ty
        setTable acc ty { t with rows := t.rows.filter fun r => decide (¬ r.node = node) })
      db, none)

/- ### Flatten/unflatten round trip: flatten as the write set of `insert` -/

mutual

/-- The observations `insert` (src/tsdb.js 542-572) writes for one value at
one field path, as `(full path, {value, type, timestamp})` entries in write
order.  This mirrors `insert` exactly: the field validation (nonempty, at
most `MAX_FIELD_SIZE` chars) guards every write; oversized strings and
arrays are rejected without a write; non-finite numbers, `null` and
`undefined` fall into the object branch and write nothing (`insertFields`
model); objects recurse per member at `field + "." + key`. -/
def flattenInsert (field : String) (v : Value) (ts : Int) : List (String × MapEntry) :=
  if field = "" ∨ field.length > MAX_FIELD_SIZE then []
  else
    match v with
    | .num x => [(field, ⟨.sNum x, .number, ts⟩)]
    | .str str => if str.length > MAX_STRING_SIZE then [] else [(field, ⟨.sText str, .string, ts⟩)]
    | .bool b => [(field, ⟨.sTiny (if b then 1 else 0), .boolean, ts⟩)]
    | .date ms => [(field, ⟨.sInt ms, .date, ts⟩)]
    | .arr elems =>
      if (Json.stringify (.jarr elems)).length > MAX_ARRAY_SIZE then []
      else [(field, ⟨.sJson elems, .array, ts⟩)]
    | .obj kvs => flattenFields field kvs ts
    | .nan => []
    | .null => []
    | .undef => []

/-- Member-wise flattening of an object's fields (the write set of
`insertFields`). -/
def flattenFields (field : String) (kvs : List (String × Value)) (ts : Int) :
    List (String × MapEntry) :=
  match kvs with
  | [] => []
  | (k, w) :: rest => flattenInsert (field ++ "." ++ k) w ts ++ flattenFields field rest ts

end

/-- The decoded runtime value of a primitive leaf after a store round trip:
what `convertToObject` yields in the `value` slot for each inserted
primitive. -/
def leafRuntime : Value → JsVal
  | .num x => .num x
  | .str s => .str s
  | .bool b => .bool b
  | .date ms => .date ms
  | .arr elems => .arr (jsonListToJsVal elems)
  | _ => .null

mutual

/-- The object the round-trip claim expects back: the input object with
each primitive leaf replaced by its `{value, timestamp}` leaf object. -/
def decorate (v : Value) (ts : Int) : JsVal :=
  match v with
  | .obj kvs => .obj (decorateFields kvs ts)
  | leaf => .obj [("value", leafRuntime leaf), ("timestamp", .date ts)]

/-- Member-wise decoration of an object's fields. -/
def decorateFields (kvs : List (String × Value)) (ts : Int) : List (String × JsVal) :=
  match kvs with
  | [] => []
  | (k, w) :: rest => (k, decorate w ts) :: decorateFields rest ts

end

/-- Every key of `a` is present in `b`. -/
def jsEquivKeys (a b : List (String × JsVal)) : Bool :=
  a.all fun kv => (assocGet b kv.1).isSome

mutual

/-- Structural equality of runtime values up to attribute insertion order:
objects are compared as key-value maps (every key of one side is present in
the other with an equivalent value), everything else is compared
structurally. -/
def jsEquiv : JsVal → JsVal → Bool
  | .num a, .num b => a == b
  | .str a, .str b => a == b
  | .bool a, .bool b => a == b
  | .null, .null => true
  | .date a, .date b => a == b
  | .arr a, .arr b => jsEquivList a b
  | .obj a, .obj b => jsEquivFields a b && jsEquivKeys b a
  | _, _ => false

/-- Element-wise equivalence of arrays (order significant). -/
def jsEquivList : List JsVal → List JsVal → Bool
  | [], [] => true
  | a :: as, b :: bs => jsEquiv a b && jsEquivList as bs
  | _, _ => false

/-- Every member of `a` is present in `b` with an equivalent value. -/
def jsEquivFields : List (String × JsVal) → List (String × JsVal) → Bool
  | [], _ => true
  | (k, v) :: rest, b =>
    (match assocGet b k with
     | some w => jsEquiv v w
     | none => false) && jsEquivFields rest b

end

mutual

/-- Well-formedness of JSON data as produced by `JSON.parse` of
`JSON.stringify` output: object members have pairwise distinct keys (a
JavaScript object cannot carry duplicate keys, so serialized arrays never
contain them). -/
def wfJson : Json → Bool
  | .jnum _ => true
  | .jstr _ => true
  | .jbool _ => true
  | .jnull => true
  | .jarr elems => wfJsonList elems
  | .jobj fields => wfJsonFields fields

/-- Element-wise JSON well-formedness. -/
def wfJsonList : List Json → Bool
  | [] => true
  | j :: rest => wfJson j && wfJsonList rest

/-- Member-wise JSON well-formedness with distinct keys. -/
def wfJsonFields : List (String × Json) → Bool
  | [] => true
  | (k, j) :: rest => (rest.all fun kv => kv.1 ≠ k) && wfJson j && wfJsonFields rest

end

mutual

/-- Well-formedness of a synthesized runtime value: every object reachable
through fields or array elements has pairwise distinct keys. -/
def wfVal : JsVal → Bool
  | .num _ => true
  | .str _ => true
  | .bool _ => true
  | .null => true
  | .date _ => true
  | .arr elems => wfValList elems
  | .obj fields => wfFields fields

/-- Element-wise runtime well-formedness. -/
def wfValList : List JsVal → Bool
  | [] => true
  | v :: rest => wfVal v && wfValList rest

/-- Member-wise runtime well-formedness with distinct keys. -/
def wfFields : List (String × JsVal) → Bool
  | [] => true
  | (k, v) :: rest => (rest.all fun kv => kv.1 ≠ k) && wfVal v && wfFields rest

end

/-- Equivalence of two objects' field lists up to attribute insertion
order. -/
def objEquiv (a b : List (String × JsVal)) : Bool :=
  jsEquivFields a b && jsEquivKeys b a

/-- Equivalence of two unflatten outcomes: both fail, or both succeed with
equivalent objects. -/
def exceptEquiv : Except Err (List (String × JsVal)) → Except Err (List (String × JsVal)) → Bool
  | .ok a, .ok b => objEquiv a b
  | .error _, .error _ => true
  | _, _ => false

/-- A name usable as an attribute on the round trip: it contains no `'.'`
(a dot inside a name would change the path structure on re-split). -/
def dotFree (k : String) : Bool := ! k.data.contains '.'

mutual

/-- The round-trip domain of the amended flatten/unflatten claim, at a
given full field path: the value is a supported primitive within its
partition's size bound, or a NONEMPTY object of distinctly named, dot-free
members whose values are again good (an empty object flattens to no
observations and cannot be reproduced); every reachable full path fits in
`MAX_FIELD_SIZE`, so no write is dropped by the field validation. -/
def goodValue (field : String) (v : Value) : Bool :=
  match v with
  | .num _ => decide (field.length ≤ MAX_FIELD_SIZE)
  | .str s => decide (field.length ≤ MAX_FIELD_SIZE) && decide (s.length ≤ MAX_STRING_SIZE)
  | .bool _ => decide (field.length ≤ MAX_FIELD_SIZE)
  | .date _ => decide (field.length ≤ MAX_FIELD_SIZE)
  | .arr elems =>
    decide (field.length ≤ MAX_FIELD_SIZE) &&
      decide ((Json.stringify (.jarr elems)).length ≤ MAX_ARRAY_SIZE) &&
      elems.all wfJson
  | .obj kvs => ! kvs.isEmpty && goodFields field kvs
  | .nan => false
  | .null => false
  | .undef => false

/-- Member-wise goodness: distinct dot-free names, good member values. -/
def goodFields (field : String) (kvs : List (String × Value)) : Bool :=
  match kvs with
  | [] => true
  | (k, w) :: rest =>
    dotFree k && (rest.all fun kv => kv.1 ≠ k) && goodValue (field ++ "." ++ k) w &&
      goodFields field rest
end

/-- The sub-object reached from a result object by walking a segment path
through existing plain objects (`none` when a segment is missing or not a
plain object). -/
def chainAt : List (String × JsVal) → List String → Option (List (String × JsVal))
  | o, [] => some o
  | o, a :: p =>
    match assocGet o a with
    | some (.obj l) => chainAt l p
    | _ => none

/-- Replace the sub-object at the end of an existing segment-path chain. -/
def setChain : List (String × JsVal) → List String → List (String × JsVal) →
    List (String × JsVal)
  | _, [], r => r
  | o, a :: p, r =>
    match assocGet o a with
    | some (.obj l) => assocSet o a (.obj (setChain l p r))
    | _ => o

/- ### Concrete scenario stores used by the claim theorems -/

/-- A valid integer node identifier used in the concrete scenarios. -/
def nodeOne : NodeId := .int 1

/-- The store after sequentially inserting three DATE observations for
`(nodeOne, ".d")` at timestamps `1 < 2 < 3` into the empty store. -/
def dbThreeDates : DB :=
  (insert (insert (insert emptyDB nodeOne ".d" (.date 100) 1).1
      nodeOne ".d" (.date 200) 2).1
    nodeOne ".d" (.date 300) 3).1

/-- The store after writing `.a` as the number `7` at timestamp `10` and
then `.a` as the boolean `true` at the EARLIER timestamp `5` (a field whose
type changed over time, with the chronologically last write in the number
partition). -/
def dbTypeChanged : DB :=
  (insert (insert emptyDB nodeOne ".a" (.num 7) 10).1 nodeOne ".a" (.bool true) 5).1

/-- The store after inserting the numbers `1` and `2` for `(nodeOne, ".a")`
both at timestamp `5`. -/
def dbDupTs : DB :=
  (insert (insert emptyDB nodeOne ".a" (.num 1) 5).1 nodeOne ".a" (.num 2) 5).1

/-- A field-path mapping in which `.a` has a leaf value recorded and is
also used as a prefix of `.a.b`. -/
def mapLeafAndChild : List (String × MapEntry) :=
  [(".a", ⟨.sNum 1, .number, 0⟩), (".a.b", ⟨.sNum 2, .number, 0⟩)]

/-- An object with an empty sub-object attribute. -/
def emptySubObj : Value := .obj [("a", .obj [])]

/-- The two entries `getSeries` returns on `dbDupTs`. -/
def dupEntries : List SeriesEntry := [⟨.num 1, 5⟩, ⟨.num 2, 5⟩]

/-- Strictly-descending-timestamp check on a series result. -/
def strictlyDescendingB : List SeriesEntry → Bool
  | [] => true
  | [_] => true
  | a :: b :: rest => decide (b.timestamp < a.timestamp) && strictlyDescendingB (b :: rest)

/-- Non-strict descending-timestamp check on a series result. -/
def descendingB : List SeriesEntry → Bool
  | [] => true
  | [_] => true
  | a :: b :: rest => decide (b.timestamp ≤ a.timestamp) && descendingB (b :: rest)

/-- Whether a string begins with the character `'.'`. -/
def beginsDot (s : String) : Bool :=
  match s.data with
  | c :: _ => decide (c = '.')
  | [] => false

/-- The stored-field well-formedness of claim C10: a nonempty, dot-prefixed
field of at most `MAX_FIELD_SIZE` characters. -/
def fieldOk (f : String) : Bool :=
  beginsDot f && decide (f ≠ "") && decide (f.length ≤ MAX_FIELD_SIZE)

/-- All rows of a table have well-formed fields. -/
def tableFieldsOk (t : Table) : Bool := t.rows.all fun r => fieldOk r.field

/-- All rows of every partition have well-formed fields. -/
def dbFieldsOk (db : DB) : Bool := tsTypes.all fun ty => tableFieldsOk (getTable db ty)

/- ### Claim theorems -/

/-- Claim C1.  The claim states that after sequentially inserting
observations for the same `(node, field)` at timestamps `t1 < t2 < t3` —
for every supported type, including date values — exactly one observation
holds `latest = true`.  The code violates this for date values:
`insertCheckedDate` invokes `setIsLatest` WITHOUT its fifth (`latest`)
argument, so the demotion step never executes, and after three sequential
date inserts at timestamps `1 < 2 < 3` all THREE rows for `(nodeOne, ".d")`
still hold `latest = 1` (the claim requires exactly one, the one at `t3`). -/
theorem insertDates_three_latest_rows :
    ((getTable dbThreeDates .date).rows.filter fun r =>
        decide (r.node = nodeOne ∧ r.field = ".d" ∧ r.latest ≠ 0)).length = 3 ∧
      (getTable dbThreeDates .date).rows.length = 3 := by
  constructor <;> rfl

/-- Claim C2 counterexample.  The claim states that snapshot synthesis maps
each field path to the row with the greatest timestamp seen for that path
ACROSS ALL partitions.  On `dbTypeChanged` the number partition holds the
chronologically last write for `.a` (timestamp `10`, `latest = 1`), yet the
merged mapping binds `.a` to the BOOLEAN partition's row with timestamp `5`,
because the boolean partition's results are merged after the number
partition's and simply overwrite them. -/
theorem synthesizeMap_not_greatest_timestamp_across_partitions :
    assocGet (synthesizeMap dbTypeChanged nodeOne condLatest) ".a" =
        some ⟨.sTiny 1, .boolean, 5⟩ ∧
      ((getTable dbTypeChanged .number).rows.map fun r =>
          (r.field, r.timestamp, r.latest)) = [(".a", 10, 1)] ∧
      (5 : Int) < 10 := by
  refine ⟨rfl, rfl, by decide⟩

/-- Claim C3.  The claim states that when a path both has a leaf value and
is used as a prefix of another path, `convertToObject` fails with a
structural-conflict error.  The code does not: its guard is
`typeof(o[field]) !== 'object'`, but a synthesized leaf is itself an object
`{value, timestamp}`, so the guard passes, the walk descends INTO the leaf
and the child is silently attached next to `value` and `timestamp` — the
position `.a` is made both a leaf and an interior node, and no error is
raised. -/
theorem convertToObject_leaf_prefix_merges_silently :
    convertToObject mapLeafAndChild =
      .ok (.obj [("a", .obj [("value", .num 1), ("timestamp", .date 0),
        ("b", .obj [("value", .num 2), ("timestamp", .date 0)])])]) := by
  rfl

/-- Claim C4.  The claim states that a value of unsupported shape fails
with `UnsupportedType` and that a non-finite number is rejected.  The code
does neither: its final dispatch test is `typeof(value == 'object')` — the
`typeof` of a comparison result, always the truthy string `'boolean'` — so
`NaN` falls into the object branch, `Object.keys(NaN)` yields no members,
and the insert returns successfully having written nothing: no error is
reported and the `UnsupportedType` throw is unreachable. -/
theorem insert_nan_silently_ignored :
    insert emptyDB nodeOne ".a" .nan 0 = (emptyDB, none) := by
  rfl

/-- Claim C5 counterexample.  The claim states the flatten/unflatten round
trip reproduces any nested object without leaf/prefix path conflicts.  An
object with an EMPTY sub-object (`{a: {}}`, which has no conflicting paths)
flattens to no observations at all, and unflattening the empty mapping
yields the empty object — the attribute `a` is lost, so the round trip does
not reproduce the input. -/
theorem roundtrip_fails_on_empty_subobject :
    flattenFields "" [("a", Value.obj [])] 0 = [] ∧
      convertToObject [] = .ok (.obj []) ∧
      jsEquiv (.obj []) (decorate emptySubObj 0) = false := by
  refine ⟨rfl, rfl, rfl⟩

/-- Claim C6 counterexample.  The claim states `getSeries` returns entries
STRICTLY ordered by descending timestamp.  After inserting two observations
for `(nodeOne, ".a")` with the SAME timestamp `5`, `getSeries` returns both
entries with equal timestamps, which is not strictly descending. -/
theorem getSeries_equal_timestamps_not_strict :
    getSeries dbDupTs nodeOne ".a" 10 100 = .ok dupEntries ∧
      strictlyDescendingB dupEntries = false := by
  refine ⟨rfl, rfl⟩

/-- Claim C7.  The claim states `getSeries` accepts a limit only up to a
maximum of at most `10000` and rejects any greater limit with an
invalid-argument error.  The code's guard is `limit > 10001`, so the limit
`10001` — greater than `10000`, and not "less than 10001" as the code's own
error message demands — is ACCEPTED and the query proceeds (returning the
empty result on the empty store instead of failing). -/
theorem getSeries_accepts_limit_10001 :
    getSeries emptyDB nodeOne ".a" 0 10001 = .ok [] ∧ limitOk 10001 = true := by
  refine ⟨rfl, rfl⟩

/-- Claim C8 counterexample.  The claim states `remove(node, confirmed)`
fails with a confirmation-required error for EVERY call where `confirmed`
is not `true`, deleting nothing.  The code's guard is JS truthiness
(`if (!sure)`), so the number `1` — which is not the boolean `true` —
passes it: the call reports no error and deletes the node's rows. -/
theorem remove_truthy_nonbool_deletes :
    (remove dbDupTs nodeOne (.num 1)).2 = none ∧
      ((remove dbDupTs nodeOne (.num 1)).1.numberT).rows = [] ∧
      typeofJs (.num 1) = "number" ∧
      (dbDupTs.numberT).rows.length = 2 := by
  refine ⟨rfl, rfl, rfl, rfl⟩

/-- Claim C9.  `insertObject(node, null, timestamp)` is NOT rejected by the
"inserted object is not an object" validation, because `typeof null`
evaluates to `'object'`; the call fails only later, when
`insertCheckedObject` enumerates the value's attributes and `Object.keys`
of `null` throws a `TypeError` — a different error than the designed
validation error. -/
theorem insertObject_null_passes_validation_fails_enumerating
    (db : DB) (node : NodeId) (ts : Int) :
    typeofJs .null = "object" ∧
      insertObject db node .null ts = (db, some .typeError) ∧
      Err.typeError ≠ Err.notAnObject := by
  refine ⟨rfl, ?_, by decide⟩
  simp [insertObject, typeofJs, insertCheckedObject, objectKeys]

/- ### Removal: amended C8 -/

/-- Rows filtered away by node never match that node again. -/
theorem filter_node_of_removed (rows : List Row) (node : NodeId) :
    ((rows.filter fun r => !decide (r.node = node)).filter fun r => decide (r.node = node)) = [] := by
  apply List.filter_eq_nil_iff.mpr
  intro a ha
  have h2 := (List.mem_filter.mp ha).2
  simp only [Bool.not_eq_eq_eq_not, Bool.not_true, decide_eq_false_iff_not] at h2
  simp [h2]

/-- A node-purged table contributes no rows to any synthesis filter. -/
theorem partitionRows_of_removed (rows : List Row) (nextId : Nat) (node : NodeId)
    (cond : Row → Bool) :
    partitionRows ⟨rows.filter fun r => !decide (r.node = node), nextId⟩ node cond = [] := by
  unfold partitionRows
  have h : (List.filter (fun r => decide (r.node = node) && cond r)
      (rows.filter fun r => !decide (r.node = node))) = [] := by
    apply List.filter_eq_nil_iff.mpr
    intro a ha
    have h2 := (List.mem_filter.mp ha).2
    simp only [Bool.not_eq_eq_eq_not, Bool.not_true, decide_eq_false_iff_not] at h2
    simp [h2]
  rw [h]
  rfl

/-- Claim C8 (amended).  The code's confirmation guard is JS truthiness,
not equality with `true`: `remove(node, confirmed)` fails with
`ConfirmationRequired` (deleting nothing) exactly when `confirmed` is
FALSY; for any TRUTHY `confirmed` (of which `true` is one instance) the
call reports no error and deletes every observation for the node from
every partition, after which `exists(node)` is false and
`synthesizeObject(node)` yields the empty structure. -/
theorem remove_spec (db : DB) (node : NodeId) (sure : Value) (hn : isNode node = true) :
    (truthy sure = false → remove db node sure = (db, some .confirmationRequired)) ∧
    (truthy sure = true →
      (remove db node sure).2 = none ∧
      (∀ ty : TsType,
        ((getTable (remove db node sure).1 ty).rows.filter fun r => decide (r.node = node)) = []) ∧
      existsNode (remove db node sure).1 node = .ok false ∧
      synthesizeObject (remove db node sure).1 node = .ok (.obj [])) := by
  constructor
  · intro h
    simp [remove, h]
  · intro h
    have hdb : remove db node sure =
        (tsTypes.foldl
          (fun acc ty =>
            let t := getTable acc ty
            setTable acc ty { t with rows := t.rows.filter fun r => !decide (r.node = node) })
          db, none) := by
      simp [remove, h, hn]
    refine ⟨by rw [hdb], ?_, ?_, ?_⟩
    · intro ty
      rw [hdb]
      simp only [tsTypes, List.foldl_cons, List.foldl_nil]
      cases ty <;> simp [getTable, setTable, filter_node_of_removed]
    · rw [hdb]
      simp only [existsNode, hn, Bool.not_eq_true, ite_false, not_false_eq_true, if_neg]
      simp only [tsTypes, List.foldl_cons, List.foldl_nil, List.any_cons, List.any_nil]
      simp [getTable, setTable, filter_node_of_removed]
    · rw [hdb]
      simp only [synthesizeObject, synthesizeObjectParameterized, hn, not_false_eq_true,
        Bool.not_eq_true, if_neg]
      have hmap : synthesizeMap
          (tsTypes.foldl
            (fun acc ty =>
              let t := getTable acc ty
              setTable acc ty { t with rows := t.rows.filter fun r => !decide (r.node = node) })
            db) node condLatest = [] := by
        simp only [synthesizeMap, tsTypes, List.foldl_cons, List.foldl_nil]
        simp [getTable, setTable, partitionRows_of_removed, mergeStep]
      rw [hmap]
      rfl

/-- Claim C8 witness: the amended theorem applied to `dbDupTs`, node `1`
and the confirmation value `true`. -/
theorem remove_spec_witness :
    truthy (.bool true) = true ∧
      synthesizeObject (remove dbDupTs nodeOne (.bool true)).1 nodeOne = .ok (.obj []) :=
  ⟨rfl, ((remove_spec dbDupTs nodeOne (.bool true) rfl).2 rfl).2.2.2⟩

/- ### Field-path invariant: C10 -/

/-- Appending `"." ++ k` to an empty or dot-prefixed base yields a
dot-prefixed string. -/
theorem beginsDot_append (a k : String) (h : a = "" ∨ beginsDot a = true) :
    beginsDot (a ++ "." ++ k) = true := by
  rcases h with h | h
  · subst h
    simp only [beginsDot, String.data_append]
    rfl
  · unfold beginsDot at h ⊢
    rcases hd : a.data with _ | ⟨c, rest⟩
    · rw [hd] at h
      exact absurd h (by simp)
    · rw [hd] at h
      simp only [String.data_append, hd]
      simpa using h

/-- `setIsLatest` never changes any row's field. -/
theorem tableFieldsOk_setIsLatest (t : Table) (node : NodeId) (field : String) (id : Nat)
    (latest : Option Nat) (h : tableFieldsOk t = true) :
    tableFieldsOk (setIsLatest t node field id latest) = true := by
  unfold setIsLatest
  split
  · unfold tableFieldsOk at h ⊢
    simp only [List.all_eq_true] at h ⊢
    intro r hr
    rcases List.mem_map.mp hr with ⟨r0, hr0, hmap⟩
    have := h r0 hr0
    subst hmap
    split
    · simpa using this
    · exact this
  · exact h

/-- Appending one well-formed-field row preserves a table's field
invariant. -/
theorem tableFieldsOk_append (rows : List Row) (nextId : Nat) (row : Row)
    (h : (Table.mk rows nextId).rows.all (fun r => fieldOk r.field) = true)
    (hr : fieldOk row.field = true) :
    tableFieldsOk ⟨rows ++ [row], nextId + 1⟩ = true := by
  unfold tableFieldsOk
  simp only [List.all_eq_true] at h ⊢
  intro r hrr
  rcases List.mem_append.mp hrr with hrr | hrr
  · exact h r hrr
  · rcases List.mem_singleton.mp hrr with rfl
    exact hr

/-- `insertCheckedRow` preserves the field invariant when the inserted
field is well-formed. -/
theorem tableFieldsOk_insertCheckedRow (t : Table) (node : NodeId) (field : String)
    (value : Stored) (ts : Int) (hf : fieldOk field = true) (h : tableFieldsOk t = true) :
    tableFieldsOk (insertCheckedRow t node field value ts) = true := by
  unfold insertCheckedRow insertRow
  apply tableFieldsOk_setIsLatest
  exact tableFieldsOk_append t.rows t.nextId _ h hf

/-- Every partition of a well-formed store is well-formed. -/
theorem dbFieldsOk_getTable (db : DB) (ty : TsType) (h : dbFieldsOk db = true) :
    tableFieldsOk (getTable db ty) = true := by
  unfold dbFieldsOk at h
  simp only [tsTypes, List.all_cons, List.all_nil, Bool.and_eq_true, Bool.and_true] at h
  cases ty <;> simp only [getTable] <;> tauto

/-- A one-partition update with a well-formed table keeps the whole-store
invariant. -/
theorem dbFieldsOk_setTable (db : DB) (ty : TsType) (t : Table)
    (hdb : dbFieldsOk db = true) (ht : tableFieldsOk t = true) :
    dbFieldsOk (setTable db ty t) = true := by
  unfold dbFieldsOk at hdb ⊢
  simp only [tsTypes, List.all_cons, List.all_nil, Bool.and_eq_true, Bool.and_true] at hdb ⊢
  obtain ⟨h1, h2, h3, h4, h5⟩ := hdb
  cases ty <;> simp [getTable, setTable] <;> tauto

mutual

/-- `insert` preserves the field-path invariant when called with a
dot-prefixed field: every validation failure leaves the store unchanged,
and every written row's field is the validated, dot-prefixed `field`. -/
theorem insert_fieldsOk (db : DB) (node : NodeId) (field : String) (v : Value) (ts : Int)
    (hf : beginsDot field = true) (h : dbFieldsOk db = true) :
    dbFieldsOk (insert db node field v ts).1 = true := by
  have hok : ¬ (field = "" ∨ field.length > MAX_FIELD_SIZE) → fieldOk field = true := by
    intro hval
    simp only [not_or, not_lt] at hval
    simp [fieldOk, hf, hval.1, Nat.le_of_not_lt (by simpa using hval.2)]
  cases v with
  | num x =>
    simp only [insert]
    split
    · exact h
    split
    · exact h
    rename_i hval
    unfold insertCheckedNumber
    exact dbFieldsOk_setTable _ _ _ h
      (tableFieldsOk_insertCheckedRow _ _ _ _ _ (hok hval) (dbFieldsOk_getTable db .number h))
  | str str =>
    simp only [insert]
    split
    · exact h
    split
    · exact h
    rename_i hval
    unfold insertCheckedString
    split
    · exact h
    exact dbFieldsOk_setTable _ _ _ h
      (tableFieldsOk_insertCheckedRow _ _ _ _ _ (hok hval) (dbFieldsOk_getTable db .string h))
  | bool b =>
    simp only [insert]
    split
    · exact h
    split
    · exact h
    rename_i hval
    unfold insertCheckedBoolean
    exact dbFieldsOk_setTable _ _ _ h
      (tableFieldsOk_insertCheckedRow _ _ _ _ _ (hok hval) (dbFieldsOk_getTable db .boolean h))
  | date ms =>
    simp only [insert]
    split
    · exact h
    split
    · exact h
    rename_i hval
    unfold insertCheckedDate insertRow
    apply dbFieldsOk_setTable _ _ _ h
    apply tableFieldsOk_setIsLatest
    exact tableFieldsOk_append _ _ _ (dbFieldsOk_getTable db .date h) (hok hval)
  | arr elems =>
    simp only [insert]
    split
    · exact h
    split
    · exact h
    rename_i hval
    unfold insertCheckedArray
    split
    · exact h
    exact dbFieldsOk_setTable _ _ _ h
      (tableFieldsOk_insertCheckedRow _ _ _ _ _ (hok hval) (dbFieldsOk_getTable db .array h))
  | obj kvs =>
    simp only [insert]
    split
    · exact h
    split
    · exact h
    exact insertFields_fieldsOk db node field kvs ts (Or.inr hf) h
  | nan =>
    simp only [insert]
    split
    · exact h
    split
    · exact h
    exact h
  | null =>
    simp only [insert]
    split
    · exact h
    split
    · exact h
    exact h
  | undef =>
    simp only [insert]
    split
    · exact h
    split
    · exact h
    exact h

/-- The member fan-out preserves the field-path invariant for an empty or
dot-prefixed base path. -/
theorem insertFields_fieldsOk (db : DB) (node : NodeId) (field : String)
    (kvs : List (String × Value)) (ts : Int)
    (hf : field = "" ∨ beginsDot field = true) (h : dbFieldsOk db = true) :
    dbFieldsOk (insertFields db node field kvs ts).1 = true := by
  match kvs with
  | [] => exact h
  | (k, w) :: rest =>
    unfold insertFields
    exact insertFields_fieldsOk _ node field rest ts hf
      (insert_fieldsOk db node (field ++ "." ++ k) w ts (beginsDot_append field k hf) h)

end

/-- Claim C10.  Every observation written through `insertObject` has a
field path that begins with `'.'` (one dot-prefixed segment per nesting
level, the base path being the empty string), and `insert` rejects any
field that is empty or longer than `MAX_FIELD_SIZE` characters before
writing — so the invariant "every stored field is a nonempty dot-prefixed
string of at most 512 characters" is preserved by every `insertObject`
write, whatever the value and whether or not the call errors. -/
theorem insertObject_preserves_field_invariant (db : DB) (node : NodeId) (v : Value) (ts : Int)
    (h : dbFieldsOk db = true) :
    dbFieldsOk (insertObject db node v ts).1 = true := by
  unfold insertObject
  split
  · exact h
  · unfold insertCheckedObject
    split
    · exact h
    · exact insertFields_fieldsOk db node "" _ ts (Or.inl rfl) h

/-- Claim C10 witness: the invariant theorem applied to the empty store and
a nested object containing every supported leaf type. -/
theorem insertObject_preserves_field_invariant_witness :
    dbFieldsOk emptyDB = true ∧
      dbFieldsOk (insertObject emptyDB nodeOne
        (.obj [("a", .num 1), ("b", .obj [("c", .str "x"), ("d", .date 7)]),
          ("e", .bool true), ("f", .arr [.jnum 3])]) 0).1 = true :=
  ⟨rfl, insertObject_preserves_field_invariant emptyDB nodeOne
    (.obj [("a", .num 1), ("b", .obj [("c", .str "x"), ("d", .date 7)]),
      ("e", .bool true), ("f", .arr [.jnum 3])]) 0 rfl⟩

/- ### Series reader: amended C6 -/

instance : IsTotal Row fun a b => b.timestamp ≤ a.timestamp :=
  ⟨fun a b => le_total b.timestamp a.timestamp⟩

instance : IsTrans Row fun a b => b.timestamp ≤ a.timestamp :=
  ⟨fun _ _ _ h1 h2 => le_trans h2 h1⟩

instance : IsTotal Row fun a b => a.timestamp ≤ b.timestamp :=
  ⟨fun a b => le_total a.timestamp b.timestamp⟩

instance : IsTrans Row fun a b => a.timestamp ≤ b.timestamp :=
  ⟨fun _ _ _ h1 h2 => le_trans h1 h2⟩

/-- Decoding never changes a row's timestamp. -/
theorem decodeSeriesRow_timestamp (ty : TsType) (r : Row) :
    (decodeSeriesRow ty r).timestamp = r.timestamp := by
  cases ty <;> rfl

/-- Decoded rows of a descending-sorted row list pass the non-strict
descending check. -/
theorem descendingB_map (ty : TsType) :
    ∀ rows : List Row, List.Sorted (fun a b : Row => b.timestamp ≤ a.timestamp) rows →
      descendingB (rows.map (decodeSeriesRow ty)) = true
  | [], _ => rfl
  | [a], _ => rfl
  | a :: b :: rest, h => by
    have hab : b.timestamp ≤ a.timestamp := (List.pairwise_cons.mp h).1 b (by simp)
    have htail := descendingB_map ty (b :: rest) (List.Pairwise.of_cons h)
    simp only [List.map_cons] at htail ⊢
    unfold descendingB
    rw [htail]
    simp [decodeSeriesRow_timestamp, hab]

/-- A series query returns at most `limit` rows. -/
theorem seriesQuery_length (t : Table) (node : NodeId) (field : String) (when_ms : Int)
    (limit : Int) : (seriesQuery t node field when_ms limit).length ≤ limit.toNat := by
  unfold seriesQuery
  simp

/-- A series query's rows are sorted by non-increasing timestamp. -/
theorem seriesQuery_sorted (t : Table) (node : NodeId) (field : String) (when_ms : Int)
    (limit : Int) :
    List.Sorted (fun a b : Row => b.timestamp ≤ a.timestamp)
      (seriesQuery t node field when_ms limit) := by
  unfold seriesQuery
  exact List.Pairwise.sublist (List.take_sublist _ _) (List.sorted_insertionSort _ _)

/-- Every row a series query returns matches the node and field and has a
timestamp at most the requested instant. -/
theorem seriesQuery_mem (t : Table) (node : NodeId) (field : String) (when_ms : Int)
    (limit : Int) (r : Row) (hr : r ∈ seriesQuery t node field when_ms limit) :
    r.node = node ∧ r.field = field ∧ r.timestamp ≤ when_ms := by
  unfold seriesQuery at hr
  have h1 := List.mem_of_mem_take hr
  rw [List.mem_insertionSort] at h1
  have h2 := (List.mem_filter.mp h1).2
  simpa using h2

/-- The partition loop of `getSeries` either returns the empty list with
every scanned partition's query empty, or returns the decoded query of the
first partition with a nonempty query. -/
theorem getSeriesLoop_cases (db : DB) (node : NodeId) (field : String) (when_ms : Int)
    (limit : Int) :
    ∀ tys : List TsType,
      (getSeriesLoop db node field when_ms limit tys = [] ∧
        ∀ ty ∈ tys, seriesQuery (getTable db ty) node field when_ms limit = []) ∨
      (∃ tys₁ ty tys₂, tys = tys₁ ++ ty :: tys₂ ∧
        (∀ ty' ∈ tys₁, seriesQuery (getTable db ty') node field when_ms limit = []) ∧
        seriesQuery (getTable db ty) node field when_ms limit ≠ [] ∧
        getSeriesLoop db node field when_ms limit tys =
          (seriesQuery (getTable db ty) node field when_ms limit).map (decodeSeriesRow ty))
  | [] => Or.inl ⟨rfl, by simp⟩
  | ty :: rest => by
    unfold getSeriesLoop
    rcases hq : seriesQuery (getTable db ty) node field when_ms limit with _ | ⟨r, rs⟩
    · simp only [List.isEmpty_nil, if_true]
      rcases getSeriesLoop_cases db node field when_ms limit rest with ⟨h1, h2⟩ | ⟨tys₁, ty', tys₂, heq, hemp, hne, hres⟩
      · refine Or.inl ⟨h1, ?_⟩
        intro t ht
        rcases List.mem_cons.mp ht with rfl | ht
        · exact hq
        · exact h2 t ht
      · refine Or.inr ⟨ty :: tys₁, ty', tys₂, by rw [heq, List.cons_append], ?_, hne, hres⟩
        intro t ht
        rcases List.mem_cons.mp ht with rfl | ht
        · exact hq
        · exact hemp t ht
    · simp only [List.isEmpty_cons, if_false, Bool.false_eq_true]
      exact Or.inr ⟨[], ty, rest, rfl, by simp, by rw [hq]; simp, by rw [hq]⟩

/-- Claim C6 (amended).  For every valid `(node, field, instant, limit)`,
`getSeries` iterates the partitions in the fixed priority order string,
number, array, date, boolean; for the first partition whose query yields at
least one observation for `(node, field, timestamp ≤ instant)` it RETURNS
that partition's decoded entries — at most `limit` of them, ordered by
NON-INCREASING timestamp (descending, but ties between equal timestamps can
occur, so not strictly descending), all with `timestamp ≤ instant`, decoded
per the value codec (`decodeSeriesRow`) — and the result is nonempty;
it returns the empty sequence exactly when no partition has matching data
(the final conjunct is a dichotomy: either every partition's query is empty
and the result is `[]`, or the result is the nonempty decoded query of the
first partition with data). -/
theorem getSeries_spec (db : DB) (node : NodeId) (field : String) (when_ms : Int) (limit : Int)
    (hn : isNode node = true) (hl : limitOk limit = true) :
    ∃ l, getSeries db node field when_ms limit = .ok l ∧
      l.length ≤ limit.toNat ∧
      descendingB l = true ∧
      (∀ e ∈ l, e.timestamp ≤ when_ms) ∧
      (((∀ ty ∈ tsTypes, seriesQuery (getTable db ty) node field when_ms limit = []) ∧
          l = []) ∨
        (∃ tys₁ ty tys₂, tsTypes = tys₁ ++ ty :: tys₂ ∧
          (∀ ty' ∈ tys₁, seriesQuery (getTable db ty') node field when_ms limit = []) ∧
          seriesQuery (getTable db ty) node field when_ms limit ≠ [] ∧
          l = (seriesQuery (getTable db ty) node field when_ms limit).map
            (decodeSeriesRow ty) ∧
          l ≠ [])) := by
  refine ⟨getSeriesLoop db node field when_ms limit tsTypes, ?_, ?_, ?_, ?_, ?_⟩
  · simp [getSeries, hn, hl]
  all_goals
    rcases getSeriesLoop_cases db node field when_ms limit tsTypes with
      ⟨h1, h2⟩ | ⟨tys₁, ty, tys₂, heq, hemp, hne, hres⟩
  · simp [h1]
  · rw [hres]
    simpa using seriesQuery_length (getTable db ty) node field when_ms limit
  · simp [h1, descendingB]
  · rw [hres]
    exact descendingB_map ty _ (seriesQuery_sorted _ _ _ _ _)
  · simp [h1]
  · rw [hres]
    intro e he
    rcases List.mem_map.mp he with ⟨r, hr, rfl⟩
    rw [decodeSeriesRow_timestamp]
    exact (seriesQuery_mem _ _ _ _ _ r hr).2.2
  · exact Or.inl ⟨h2, h1⟩
  · refine Or.inr ⟨tys₁, ty, tys₂, heq, hemp, hne, hres, ?_⟩
    rw [hres]
    rcases hq : seriesQuery (getTable db ty) node field when_ms limit with _ | ⟨r, rs⟩
    · exact absurd hq hne
    · simp

/-- Claim C6 witness: the amended theorem at `dbDupTs` with
`(node 1, ".a", instant 10, limit 100)`. -/
theorem getSeries_spec_witness :
    isNode nodeOne = true ∧ limitOk 100 = true ∧
      ∃ l, getSeries dbDupTs nodeOne ".a" 10 100 = .ok l ∧
        l.length ≤ (100 : Int).toNat ∧
        descendingB l = true ∧
        (∀ e ∈ l, e.timestamp ≤ 10) ∧
        (((∀ ty ∈ tsTypes, seriesQuery (getTable dbDupTs ty) nodeOne ".a" 10 100 = []) ∧
            l = []) ∨
          (∃ tys₁ ty tys₂, tsTypes = tys₁ ++ ty :: tys₂ ∧
            (∀ ty' ∈ tys₁, seriesQuery (getTable dbDupTs ty') nodeOne ".a" 10 100 = []) ∧
            seriesQuery (getTable dbDupTs ty) nodeOne ".a" 10 100 ≠ [] ∧
            l = (seriesQuery (getTable dbDupTs ty) nodeOne ".a" 10 100).map
              (decodeSeriesRow ty) ∧
            l ≠ [])) :=
  ⟨rfl, rfl, getSeries_spec dbDupTs nodeOne ".a" 10 100 rfl rfl⟩

/- ### Snapshot synthesis merge: amended C2 -/

/-- The rows a partition contributes for one field path under a synthesis
filter. -/
def fieldRows (db : DB) (node : NodeId) (cond : Row → Bool) (f : String) (ty : TsType) :
    List Row :=
  (partitionRows (getTable db ty) node cond).filter fun r => decide (r.field = f)

/-- Association lookup after an association update. -/
theorem assocGet_assocSet {β : Type} (m : List (String × β)) (k f : String) (v : β) :
    assocGet (assocSet m k v) f = if k = f then some v else assocGet m f := by
  induction m with
  | nil =>
    by_cases h : k = f <;> simp [assocSet, assocGet, h]
  | cons kv rest ih =>
    obtain ⟨k', v'⟩ := kv
    by_cases h1 : k' = k
    · subst h1
      by_cases h2 : k' = f <;> simp [assocSet, assocGet, h2]
    · by_cases h2 : k' = f
      · subst h2
        simp only [assocSet, if_neg h1, assocGet, if_pos rfl]
        have : ¬ k = k' := fun hh => h1 hh.symm
        simp [this]
      · simp [assocSet, h1, assocGet, h2, ih]

/-- Folding one partition's ascending rows into the map: for each field the
entry either is untouched (no row at that field) or becomes the partition's
greatest-timestamp row at that field. -/
theorem assocGet_mergeStep (ty : TsType) (f : String) :
    ∀ (rows : List Row) (m : List (String × MapEntry)),
      List.Sorted (fun a b : Row => a.timestamp ≤ b.timestamp) rows →
      ((rows.filter fun r => decide (r.field = f)) = [] ∧
        assocGet (mergeStep ty m rows) f = assocGet m f) ∨
      (∃ r ∈ rows.filter fun r => decide (r.field = f),
        assocGet (mergeStep ty m rows) f = some ⟨r.value, ty, r.timestamp⟩ ∧
        ∀ r' ∈ rows.filter fun r => decide (r.field = f), r'.timestamp ≤ r.timestamp)
  | [], m, _ => Or.inl ⟨rfl, rfl⟩
  | r0 :: rest, m, hs => by
    have hstep : mergeStep ty m (r0 :: rest) =
        mergeStep ty (assocSet m r0.field ⟨r0.value, ty, r0.timestamp⟩) rest := rfl
    have hrest := assocGet_mergeStep ty f rest
      (assocSet m r0.field ⟨r0.value, ty, r0.timestamp⟩) (List.Pairwise.of_cons hs)
    have hle : ∀ r' ∈ rest, r0.timestamp ≤ r'.timestamp := (List.pairwise_cons.mp hs).1
    by_cases hf : r0.field = f
    · rcases hrest with ⟨h1, h2⟩ | ⟨r, hrmem, hget, hmax⟩
      · refine Or.inr ⟨r0, ?_, ?_, ?_⟩
        · simp [List.filter_cons, hf]
        · rw [hstep, h2, assocGet_assocSet, if_pos hf]
        · intro r' hr'
          simp only [List.filter_cons, hf] at hr'
          simp only [decide_eq_true_eq, if_pos] at hr'
          rcases List.mem_cons.mp hr' with rfl | hr'
          · exact le_refl _
          · rw [h1] at hr'
            exact absurd hr' (List.not_mem_nil r')
      · refine Or.inr ⟨r, ?_, by rw [hstep]; exact hget, ?_⟩
        · simp only [List.filter_cons, hf]
          simp only [decide_eq_true_eq, if_pos]
          exact List.mem_cons_of_mem r0 hrmem
        · intro r' hr'
          simp only [List.filter_cons, hf] at hr'
          simp only [decide_eq_true_eq, if_pos] at hr'
          rcases List.mem_cons.mp hr' with rfl | hr'
          · exact hle r (List.mem_of_mem_filter hrmem)
          · exact hmax r' hr'
    · rcases hrest with ⟨h1, h2⟩ | ⟨r, hrmem, hget, hmax⟩
      · refine Or.inl ⟨?_, ?_⟩
        · simp [List.filter_cons, hf, h1]
        · rw [hstep, h2, assocGet_assocSet, if_neg hf]
      · refine Or.inr ⟨r, ?_, by rw [hstep]; exact hget, ?_⟩
        · simpa [List.filter_cons, hf] using hrmem
        · intro r' hr'
          apply hmax
          simpa [List.filter_cons, hf] using hr'

/-- Folding a list of partitions: for each field the final entry comes from
the LAST partition (in fold order) contributing rows at that field, and is
that partition's greatest-timestamp row there. -/
theorem assocGet_synthFold (db : DB) (node : NodeId) (cond : Row → Bool) (f : String) :
    ∀ (tys : List TsType) (m : List (String × MapEntry)),
      ((∀ ty ∈ tys, fieldRows db node cond f ty = []) ∧
        assocGet
          (tys.foldl (fun m ty => mergeStep ty m (partitionRows (getTable db ty) node cond)) m)
          f = assocGet m f) ∨
      (∃ tys₁ ty tys₂, tys = tys₁ ++ ty :: tys₂ ∧
        (∀ ty' ∈ tys₂, fieldRows db node cond f ty' = []) ∧
        ∃ r ∈ fieldRows db node cond f ty,
          assocGet
            (tys.foldl (fun m ty => mergeStep ty m (partitionRows (getTable db ty) node cond)) m)
            f = some ⟨r.value, ty, r.timestamp⟩ ∧
          ∀ r' ∈ fieldRows db node cond f ty, r'.timestamp ≤ r.timestamp)
  | [], m => Or.inl ⟨by simp, rfl⟩
  | ty0 :: rest, m => by
    have hsorted : List.Sorted (fun a b : Row => a.timestamp ≤ b.timestamp)
        (partitionRows (getTable db ty0) node cond) := List.sorted_insertionSort _ _
    have hstep := assocGet_mergeStep ty0 f (partitionRows (getTable db ty0) node cond) m hsorted
    have hrest := assocGet_synthFold db node cond f rest
      (mergeStep ty0 m (partitionRows (getTable db ty0) node cond))
    rcases hrest with ⟨h1, h2⟩ | ⟨tys₁, ty, tys₂, heq, hemp, r, hrmem, hget, hmax⟩
    · rcases hstep with ⟨hq1, hq2⟩ | ⟨r, hrmem, hget, hmax⟩
      · refine Or.inl ⟨?_, by rw [List.foldl_cons, h2, hq2]⟩
        intro t ht
        rcases List.mem_cons.mp ht with rfl | ht
        · exact hq1
        · exact h1 t ht
      · refine Or.inr ⟨[], ty0, rest, rfl, h1, r, hrmem, ?_, hmax⟩
        rw [List.foldl_cons, h2]
        exact hget
    · exact Or.inr ⟨ty0 :: tys₁, ty, tys₂, by rw [heq, List.cons_append], hemp, r, hrmem,
        by rw [List.foldl_cons]; exact hget, hmax⟩

/-- Claim C2 (amended).  Snapshot synthesis does NOT pick the greatest
timestamp across partitions: within each partition the greatest-timestamp
row for a path wins (ascending-order consumption with overwrite), but
across partitions the row from the LAST partition, in the fixed merge order
string, number, array, date, boolean, that has any matching row for the
path wins, regardless of its timestamp.  In particular, when a single
partition holds all of a path's rows (no type change), the path maps to the
chronologically last write. -/
theorem synthesizeMap_last_partition_wins (db : DB) (node : NodeId) (cond : Row → Bool)
    (f : String) (e : MapEntry) (h : assocGet (synthesizeMap db node cond) f = some e) :
    ∃ tys₁ ty tys₂, tsTypes = tys₁ ++ ty :: tys₂ ∧
      (∀ ty' ∈ tys₂, fieldRows db node cond f ty' = []) ∧
      ∃ r ∈ fieldRows db node cond f ty,
        e = ⟨r.value, ty, r.timestamp⟩ ∧
        ∀ r' ∈ fieldRows db node cond f ty, r'.timestamp ≤ r.timestamp := by
  rcases assocGet_synthFold db node cond f tsTypes [] with ⟨_, h2⟩ | ⟨tys₁, ty, tys₂, heq, hemp, r, hrmem, hget, hmax⟩
  · rw [synthesizeMap] at h
    rw [h] at h2
    exact absurd h2.symm (by simp [assocGet])
  · rw [synthesizeMap] at h
    rw [h] at hget
    exact ⟨tys₁, ty, tys₂, heq, hemp, r, hrmem, Option.some.inj hget, hmax⟩

/-- Claim C2 witness: the amended theorem at `dbTypeChanged`, where the map
entry for `.a` is the boolean partition's row at timestamp 5 (the boolean
partition being the last one contributing rows for `.a`). -/
theorem synthesizeMap_last_partition_wins_witness :
    ∃ tys₁ ty tys₂, tsTypes = tys₁ ++ ty :: tys₂ ∧
      (∀ ty' ∈ tys₂, fieldRows dbTypeChanged nodeOne condLatest ".a" ty' = []) ∧
      ∃ r ∈ fieldRows dbTypeChanged nodeOne condLatest ".a" ty,
        (⟨.sTiny 1, .boolean, 5⟩ : MapEntry) = ⟨r.value, ty, r.timestamp⟩ ∧
        ∀ r' ∈ fieldRows dbTypeChanged nodeOne condLatest ".a" ty,
          r'.timestamp ≤ r.timestamp :=
  synthesizeMap_last_partition_wins dbTypeChanged nodeOne condLatest ".a"
    ⟨.sTiny 1, .boolean, 5⟩ rfl

/- ### Flatten/unflatten round trip (claim C5): split and association lemmas -/

/-- Splitting distributes over a dot separator in the character list. -/
theorem splitDotAux_append (y : List Char) :
    ∀ (x acc : List Char),
      splitDotAux (x ++ '.' :: y) acc = splitDotAux x acc ++ splitDotAux y []
  | [], acc => by simp [splitDotAux]
  | c :: cs, acc => by
    by_cases h : c = '.'
    · subst h
      show splitDotAux ('.' :: (cs ++ '.' :: y)) acc = splitDotAux ('.' :: cs) acc ++ _
      rw [splitDotAux, splitDotAux, if_pos rfl, if_pos rfl, splitDotAux_append y cs []]
      simp
    · show splitDotAux (c :: (cs ++ '.' :: y)) acc = splitDotAux (c :: cs) acc ++ _
      rw [splitDotAux, splitDotAux, if_neg h, if_neg h, splitDotAux_append y cs (c :: acc)]

/-- A dot-free character run splits into the single accumulated string. -/
theorem splitDotAux_dotFree :
    ∀ (cs acc : List Char), '.' ∉ cs →
      splitDotAux cs acc = [String.mk (acc.reverse ++ cs)]
  | [], acc, _ => by simp [splitDotAux]
  | c :: cs, acc, h => by
    have hc : ¬ c = '.' := fun hh => h (by rw [hh]; exact List.mem_cons_self _ _)
    have hcs : '.' ∉ cs := fun hh => h (List.mem_cons_of_mem _ hh)
    rw [splitDotAux, if_neg hc, splitDotAux_dotFree cs (c :: acc) hcs]
    simp

/-- `split('.')` of a concatenation `b + "." + k` with a dot-free `k`. -/
theorem splitDot_append (b k : String) (hk : dotFree k = true) :
    splitDot (b ++ "." ++ k) = splitDot b ++ [k] := by
  unfold splitDot
  have hdata : (b ++ "." ++ k).data = b.data ++ '.' :: k.data := by
    rw [String.data_append, String.data_append, List.append_assoc]
    rfl
  rw [hdata, splitDotAux_append]
  have hnd : '.' ∉ k.data := by
    unfold dotFree at hk
    simp only [Bool.not_eq_eq_eq_not, Bool.not_true] at hk
    intro hmem
    simp at hk
    exact hk hmem
  rw [splitDotAux_dotFree k.data [] hnd]
  simp

/-- Splitting the empty base path yields the single empty segment. -/
theorem splitDot_empty : splitDot "" = [""] := rfl

/-- An association list extends by a fresh key at the end. -/
theorem assocSet_none {β : Type} :
    ∀ (l : List (String × β)) (k : String) (v : β), assocGet l k = none →
      assocSet l k v = l ++ [(k, v)]
  | [], _, _, _ => rfl
  | (k', v') :: rest, k, v, h => by
    have hk : ¬ k' = k := by
      intro hh
      rw [assocGet, if_pos hh] at h
      cases h
    rw [assocGet, if_neg hk] at h
    simp only [assocSet, if_neg hk, List.cons_append, List.cons.injEq, true_and]
    exact assocSet_none rest k v h

/-- Updating the key just appended overwrites it in place. -/
theorem assocSet_append_self {β : Type} :
    ∀ (l : List (String × β)) (k : String) (y x : β), assocGet l k = none →
      assocSet (l ++ [(k, y)]) k x = l ++ [(k, x)]
  | [], _, _, _, _ => by simp [assocSet]
  | (k', v') :: rest, k, y, x, h => by
    have hk : ¬ k' = k := by
      intro hh
      rw [assocGet, if_pos hh] at h
      cases h
    rw [assocGet, if_neg hk] at h
    simp only [List.cons_append, assocSet, if_neg hk, List.cons.injEq, true_and]
    exact assocSet_append_self rest k y x h

/-- Lookup at a different key is unchanged by an update. -/
theorem assocGet_assocSet_ne {β : Type} (l : List (String × β)) (k f : String) (v : β)
    (h : ¬ k = f) : assocGet (assocSet l k v) f = assocGet l f := by
  rw [assocGet_assocSet, if_neg h]

/-- Lookup at the updated key yields the update. -/
theorem assocGet_assocSet_self {β : Type} (l : List (String × β)) (k : String) (v : β) :
    assocGet (assocSet l k v) k = some v := by
  rw [assocGet_assocSet, if_pos rfl]

/-- A successful lookup locates a member pair. -/
theorem assocGet_mem {β : Type} :
    ∀ (l : List (String × β)) (k : String) (v : β), assocGet l k = some v → (k, v) ∈ l
  | [], _, _, h => by cases h
  | (k', v') :: rest, k, v, h => by
    by_cases hk : k' = k
    · subst hk
      rw [assocGet, if_pos rfl] at h
      cases h
      exact List.mem_cons_self _ _
    · rw [assocGet, if_neg hk] at h
      exact List.mem_cons_of_mem _ (assocGet_mem rest k v h)

/-- In a distinct-key list, every member pair is found by lookup. -/
theorem assocGet_of_mem_nodup :
    ∀ (l : List (String × JsVal)) (k : String) (v : JsVal), wfFields l = true →
      (k, v) ∈ l → assocGet l k = some v
  | [], _, _, _, h => absurd h (List.not_mem_nil _)
  | (k', v') :: rest, k, v, hwf, h => by
    simp only [wfFields, Bool.and_eq_true, List.all_eq_true] at hwf
    rcases List.mem_cons.mp h with heq | hmem
    · cases heq
      rw [assocGet, if_pos rfl]
    · have hne : ¬ k' = k := by
        intro hh
        subst hh
        have hcontr := hwf.1.1 (k', v) hmem
        simp at hcontr
      rw [assocGet, if_neg hne]
      exact assocGet_of_mem_nodup rest k v hwf.2 hmem

/- ### Chain algebra for the unflatten walk -/

/-- Double update at one key collapses. -/
theorem assocSet_assocSet {β : Type} :
    ∀ (o : List (String × β)) (k : String) (x y : β),
      assocSet (assocSet o k x) k y = assocSet o k y
  | [], _, _, _ => by simp [assocSet]
  | (k', v') :: rest, k, x, y => by
    by_cases hk : k' = k
    · simp [assocSet, hk]
    · simp only [assocSet, if_neg hk, List.cons.injEq, true_and]
      exact assocSet_assocSet rest k x y

/-- Unfolding a one-segment chain step. -/
theorem chainAt_cons (o : List (String × JsVal)) (a : String) (p : List String)
    (l : List (String × JsVal)) (h : chainAt o (a :: p) = some l) :
    ∃ l₀, assocGet o a = some (.obj l₀) ∧ chainAt l₀ p = some l := by
  unfold chainAt at h
  rcases hget : assocGet o a with _ | val
  · rw [hget] at h
    cases h
  · rw [hget] at h
    cases val with
    | obj l₀ => exact ⟨l₀, rfl, h⟩
    | num n => cases h
    | str s => cases h
    | bool b => cases h
    | null => cases h
    | date ms => cases h
    | arr elems => cases h

/-- One chain step through an existing plain object. -/
theorem chainAt_cons_obj (o : List (String × JsVal)) (a : String) (p : List String)
    (l₀ : List (String × JsVal)) (h : assocGet o a = some (.obj l₀)) :
    chainAt o (a :: p) = chainAt l₀ p := by
  show (match assocGet o a with
    | some (.obj l) => chainAt l p
    | _ => none) = chainAt l₀ p
  rw [h]

/-- One chain-replacement step through an existing plain object. -/
theorem setChain_cons_obj (o : List (String × JsVal)) (a : String) (p : List String)
    (l₀ r : List (String × JsVal)) (h : assocGet o a = some (.obj l₀)) :
    setChain o (a :: p) r = assocSet o a (.obj (setChain l₀ p r)) := by
  show (match assocGet o a with
    | some (.obj l) => assocSet o a (.obj (setChain l p r))
    | _ => o) = assocSet o a (.obj (setChain l₀ p r))
  rw [h]

/-- One walk step through an existing plain object. -/
theorem setPath_cons_obj (o : List (String × JsVal)) (f : String) (rest : List String)
    (l : List (String × JsVal)) (last : String) (leaf : JsVal)
    (h : assocGet o f = some (.obj l)) :
    setPath o (f :: rest) last leaf =
      (setPath l rest last leaf).map fun l' => assocSet o f (.obj l') := by
  show (match assocGet o f with
    | some (.obj l) => (setPath l rest last leaf).map fun l' => assocSet o f (.obj l')
    | some (.num _) => Except.error .structuralConflict
    | some (.str _) => Except.error .structuralConflict
    | some (.bool _) => Except.error .structuralConflict
    | some (.date _) => Except.error .unmodelledMutation
    | some (.arr _) => Except.error .unmodelledMutation
    | some .null => Except.error .unmodelledMutation
    | none => (setPath [] rest last leaf).map fun l' => assocSet o f (.obj l')) = _
  rw [h]

/-- One walk step creating a missing object. -/
theorem setPath_cons_none (o : List (String × JsVal)) (f : String) (rest : List String)
    (last : String) (leaf : JsVal) (h : assocGet o f = none) :
    setPath o (f :: rest) last leaf =
      (setPath [] rest last leaf).map fun l' => assocSet o f (.obj l') := by
  show (match assocGet o f with
    | some (.obj l) => (setPath l rest last leaf).map fun l' => assocSet o f (.obj l')
    | some (.num _) => Except.error .structuralConflict
    | some (.str _) => Except.error .structuralConflict
    | some (.bool _) => Except.error .structuralConflict
    | some (.date _) => Except.error .unmodelledMutation
    | some (.arr _) => Except.error .unmodelledMutation
    | some .null => Except.error .unmodelledMutation
    | none => (setPath [] rest last leaf).map fun l' => assocSet o f (.obj l')) = _
  rw [h]

/-- Replacing a chain's end makes it the chain's new end. -/
theorem chainAt_setChain :
    ∀ (p : List String) (o l r : List (String × JsVal)), chainAt o p = some l →
      chainAt (setChain o p r) p = some r
  | [], o, l, r, _ => rfl
  | a :: p, o, l, r, h => by
    rcases chainAt_cons o a p l h with ⟨l₀, hget, hrest⟩
    rw [setChain_cons_obj o a p l₀ r hget,
      chainAt_cons_obj _ a p (setChain l₀ p r) (assocGet_assocSet_self o a _)]
    exact chainAt_setChain p l₀ l r hrest

/-- Two chain replacements at the same path collapse to the second. -/
theorem setChain_setChain :
    ∀ (p : List String) (o l a b : List (String × JsVal)), chainAt o p = some l →
      setChain (setChain o p a) p b = setChain o p b
  | [], _, _, _, _, _ => rfl
  | s :: p, o, l, a, b, h => by
    rcases chainAt_cons o s p l h with ⟨l₀, hget, hrest⟩
    rw [setChain_cons_obj o s p l₀ a hget,
      setChain_cons_obj _ s p (setChain l₀ p a) b (assocGet_assocSet_self o s _),
      setChain_setChain p l₀ l a b hrest, assocSet_assocSet,
      setChain_cons_obj o s p l₀ b hget]

/-- A chain extends across a path concatenation. -/
theorem chainAt_append :
    ∀ (p q : List String) (o l : List (String × JsVal)), chainAt o p = some l →
      chainAt o (p ++ q) = chainAt l q
  | [], q, o, l, h => by
    have hol : o = l := Option.some.inj h
    subst hol
    rfl
  | a :: p, q, o, l, h => by
    rcases chainAt_cons o a p l h with ⟨l₀, hget, hrest⟩
    show chainAt o (a :: (p ++ q)) = chainAt l q
    rw [chainAt_cons_obj o a (p ++ q) l₀ hget]
    exact chainAt_append p q l₀ l hrest

/-- A chain replacement across a concatenation factors through the end of
the first chain. -/
theorem setChain_append :
    ∀ (p q : List String) (o l r : List (String × JsVal)), chainAt o p = some l →
      setChain o (p ++ q) r = setChain o p (setChain l q r)
  | [], q, o, l, r, h => by
    have hol : o = l := Option.some.inj h
    subst hol
    rfl
  | a :: p, q, o, l, r, h => by
    rcases chainAt_cons o a p l h with ⟨l₀, hget, hrest⟩
    show setChain o (a :: (p ++ q)) r = _
    rw [setChain_cons_obj o a (p ++ q) l₀ r hget,
      setChain_cons_obj o a p l₀ (setChain l q r) hget,
      setChain_append p q l₀ l r hrest]

/-- Frame rule for the unflatten walk: walking `p ++ q` from a state whose
chain along `p` ends at `l` is walking `q` inside `l` and splicing the
result back. -/
theorem setPath_frame :
    ∀ (p q : List String) (o l : List (String × JsVal)) (last : String) (leaf : JsVal),
      chainAt o p = some l →
      setPath o (p ++ q) last leaf = (setPath l q last leaf).map (setChain o p)
  | [], q, o, l, last, leaf, h => by
    have hol : o = l := Option.some.inj h
    subst hol
    cases hr : setPath o q last leaf <;> simp [Except.map, setChain, hr]
  | a :: p, q, o, l, last, leaf, h => by
    rcases chainAt_cons o a p l h with ⟨l₀, hget, hrest⟩
    show setPath o (a :: (p ++ q)) last leaf = _
    rw [setPath_cons_obj o a (p ++ q) l₀ last leaf hget,
      setPath_frame p q l₀ l last leaf hrest]
    cases hr : setPath l q last leaf with
    | error e => simp [Except.map]
    | ok r =>
      simp only [Except.map]
      rw [setChain_cons_obj o a p l₀ r hget]

/- ### Flatten keys: shapes, freshness, and the step identification -/

/-- Lookup across an append prefers the first list. -/
theorem assocGet_append {β : Type} :
    ∀ (l₁ l₂ : List (String × β)) (k : String),
      assocGet (l₁ ++ l₂) k =
        match assocGet l₁ k with
        | some v => some v
        | none => assocGet l₂ k
  | [], _, _ => rfl
  | (k', v') :: rest, l₂, k => by
    by_cases hk : k' = k
    · simp [assocGet, hk]
    · simp only [List.cons_append, assocGet, if_neg hk]
      exact assocGet_append rest l₂ k

/-- A dotted extension of any base path is nonempty. -/
theorem append_dot_ne_empty (b k : String) : ¬ (b ++ "." ++ k) = "" := by
  intro h
  have hlen := congrArg String.length h
  rw [String.length_append, String.length_append] at hlen
  have h1 : (".".length) = 1 := rfl
  have h0 : ("" : String).length = 0 := rfl
  omega

/-- Every good value's full path fits the field bound. -/
theorem goodValue_length_le (f : String) (v : Value) (hg : goodValue f v = true) :
    f.length ≤ MAX_FIELD_SIZE := by
  cases v with
  | num x => simpa [goodValue] using hg
  | str str =>
    simp only [goodValue, Bool.and_eq_true, decide_eq_true_eq] at hg
    exact hg.1
  | bool b => simpa [goodValue] using hg
  | date ms => simpa [goodValue] using hg
  | arr elems =>
    simp only [goodValue, Bool.and_eq_true, decide_eq_true_eq] at hg
    exact hg.1.1
  | obj kvs =>
    simp only [goodValue, Bool.and_eq_true] at hg
    cases kvs with
    | nil => simp at hg
    | cons kv rest =>
      obtain ⟨k0, v0⟩ := kv
      simp only [goodFields, Bool.and_eq_true, decide_eq_true_eq] at hg
      have := goodValue_length_le (f ++ "." ++ k0) v0 hg.2.1.2
      have hfk : (f ++ "." ++ k0).length = f.length + 1 + k0.length := by
        rw [String.length_append, String.length_append]
        rfl
      omega
  | nan => simp [goodValue] at hg
  | null => simp [goodValue] at hg
  | undef => simp [goodValue] at hg

/-- One observation is written for each good primitive, and a good object's
write set is its members'. -/
theorem flattenInsert_of_good (ts : Int) (f : String) (v : Value)
    (hne : ¬ f = "") (hg : goodValue f v = true) :
    flattenInsert f v ts =
      match v with
      | .num x => [(f, ⟨.sNum x, .number, ts⟩)]
      | .str str => [(f, ⟨.sText str, .string, ts⟩)]
      | .bool b => [(f, ⟨.sTiny (if b then 1 else 0), .boolean, ts⟩)]
      | .date ms => [(f, ⟨.sInt ms, .date, ts⟩)]
      | .arr elems => [(f, ⟨.sJson elems, .array, ts⟩)]
      | .obj kvs => flattenFields f kvs ts
      | _ => [] := by
  have hlen : ¬ f.length > MAX_FIELD_SIZE := Nat.not_lt.mpr (goodValue_length_le f v hg)
  cases v with
  | num x => simp [flattenInsert, hne, hlen]
  | str str =>
    simp only [goodValue, Bool.and_eq_true, decide_eq_true_eq] at hg
    simp [flattenInsert, hne, hlen, Nat.not_lt.mpr hg.2]
  | bool b => simp [flattenInsert, hne, hlen]
  | date ms => simp [flattenInsert, hne, hlen]
  | arr elems =>
    simp only [goodValue, Bool.and_eq_true, decide_eq_true_eq] at hg
    simp [flattenInsert, hne, hlen, Nat.not_lt.mpr hg.1.2]
  | obj kvs => simp [flattenInsert, hne, hlen]
  | nan => simp [goodValue] at hg
  | null => simp [goodValue] at hg
  | undef => simp [goodValue] at hg

/-- A good value flattens to at least one observation. -/
theorem flattenInsert_ne_nil (ts : Int) :
    ∀ (v : Value) (f : String), ¬ f = "" → goodValue f v = true →
      flattenInsert f v ts ≠ []
  | .num x, f, hne, hg => by rw [flattenInsert_of_good ts f _ hne hg]; simp
  | .str str, f, hne, hg => by rw [flattenInsert_of_good ts f _ hne hg]; simp
  | .bool b, f, hne, hg => by rw [flattenInsert_of_good ts f _ hne hg]; simp
  | .date ms, f, hne, hg => by rw [flattenInsert_of_good ts f _ hne hg]; simp
  | .arr elems, f, hne, hg => by rw [flattenInsert_of_good ts f _ hne hg]; simp
  | .nan, f, hne, hg => by simp [goodValue] at hg
  | .null, f, hne, hg => by simp [goodValue] at hg
  | .undef, f, hne, hg => by simp [goodValue] at hg
  | .obj kvs, f, hne, hg => by
    rw [flattenInsert_of_good ts f _ hne hg]
    simp only [goodValue, Bool.and_eq_true] at hg
    cases kvs with
    | nil => simp at hg
    | cons kv rest =>
      obtain ⟨k0, v0⟩ := kv
      simp only [goodFields, Bool.and_eq_true, decide_eq_true_eq] at hg
      have hsub := flattenInsert_ne_nil ts v0 (f ++ "." ++ k0)
        (append_dot_ne_empty f k0) hg.2.1.2
      show flattenInsert (f ++ "." ++ k0) v0 ts ++ flattenFields f rest ts ≠ []
      simp [hsub]

mutual

/-- Every key flattened from a value extends the value's own full path. -/
theorem flattenInsert_key_shape (ts : Int) :
    ∀ (v : Value) (f : String), goodValue f v = true →
      ∀ kv ∈ flattenInsert f v ts, ∃ t : List String, splitDot kv.1 = splitDot f ++ t
  | .num x, f, _, kv, hmem => by
    simp only [flattenInsert] at hmem
    split at hmem
    · cases hmem
    · rcases List.mem_singleton.mp hmem with rfl
      exact ⟨[], by simp⟩
  | .str str, f, _, kv, hmem => by
    simp only [flattenInsert] at hmem
    split at hmem
    · cases hmem
    · split at hmem
      · cases hmem
      · rcases List.mem_singleton.mp hmem with rfl
        exact ⟨[], by simp⟩
  | .bool b, f, _, kv, hmem => by
    simp only [flattenInsert] at hmem
    split at hmem
    · cases hmem
    · rcases List.mem_singleton.mp hmem with rfl
      exact ⟨[], by simp⟩
  | .date ms, f, _, kv, hmem => by
    simp only [flattenInsert] at hmem
    split at hmem
    · cases hmem
    · rcases List.mem_singleton.mp hmem with rfl
      exact ⟨[], by simp⟩
  | .arr elems, f, _, kv, hmem => by
    simp only [flattenInsert] at hmem
    split at hmem
    · cases hmem
    · split at hmem
      · cases hmem
      · rcases List.mem_singleton.mp hmem with rfl
        exact ⟨[], by simp⟩
  | .obj kvs, f, hg, kv, hmem => by
    simp only [flattenInsert] at hmem
    split at hmem
    · cases hmem
    · simp only [goodValue, Bool.and_eq_true] at hg
      rcases flattenFields_key_shape ts kvs f hg.2 kv hmem with ⟨k', t, _, hsplit⟩
      exact ⟨k' :: t, hsplit⟩
  | .nan, f, _, kv, hmem => by
    simp only [flattenInsert] at hmem
    split at hmem
    · cases hmem
    · cases hmem
  | .null, f, _, kv, hmem => by
    simp only [flattenInsert] at hmem
    split at hmem
    · cases hmem
    · cases hmem
  | .undef, f, _, kv, hmem => by
    simp only [flattenInsert] at hmem
    split at hmem
    · cases hmem
    · cases hmem

/-- Every key flattened from an object's members extends the base path by
at least one dot-free segment. -/
theorem flattenFields_key_shape (ts : Int) :
    ∀ (kvs : List (String × Value)) (b : String), goodFields b kvs = true →
      ∀ kv ∈ flattenFields b kvs ts, ∃ (k' : String) (t : List String),
        dotFree k' = true ∧ splitDot kv.1 = splitDot b ++ k' :: t
  | [], b, _, kv, hmem => absurd hmem (List.not_mem_nil kv)
  | (k0, v0) :: rest, b, hg, kv, hmem => by
    simp only [goodFields, Bool.and_eq_true, decide_eq_true_eq] at hg
    rcases List.mem_append.mp hmem with hmem | hmem
    · rcases flattenInsert_key_shape ts v0 (b ++ "." ++ k0) hg.1.2 kv hmem with ⟨t, hsplit⟩
      refine ⟨k0, t, hg.1.1.1, ?_⟩
      rw [hsplit, splitDot_append b k0 hg.1.1.1, List.append_assoc]
      rfl
    · exact flattenFields_key_shape ts rest b hg.2 kv hmem

end

/-- One sorted-key step of `convertToObject`, identified as a `setPath`
walk: for a key splitting as `"" :: p ++ [k]`, the walked interior is `p`
and the leaf lands at `k`. -/
theorem convertStep_eq_setPath (m : List (String × MapEntry)) (o : List (String × JsVal))
    (key : String) (e : MapEntry) (p : List String) (k : String)
    (hm : assocGet m key = some e) (hsplit : splitDot key = "" :: p ++ [k]) :
    convertStep m o key = setPath o p k (leafFor e) := by
  show (match assocGet m key with
    | none => Except.ok o
    | some e =>
      let path := splitDot key
      setPath o (path.drop 1).dropLast (path.getLastD "") (leafFor e)) = _
  rw [hm, hsplit]
  show setPath o ((p ++ [k]).dropLast) (("" :: p ++ [k]).getLastD "") (leafFor e) = _
  rw [List.dropLast_concat]
  have hlast : ("" :: p ++ [k]).getLastD "" = k := by
    rw [show ("" :: p ++ [k]) = ("" :: p) ++ [k] from rfl, List.getLastD_eq_getLast?,
      List.getLast?_concat]
    rfl
  rw [hlast]

/-- Pre-creating the empty object a walk's first missing segment would
create does not change the walk's outcome. -/
theorem setPath_precreate (p q : List String) (k : String) (last : String) (leaf : JsVal)
    (o l : List (String × JsVal)) (hchain : chainAt o p = some l)
    (hfresh : assocGet l k = none) :
    setPath o (p ++ k :: q) last leaf =
      setPath (setChain o p (assocSet l k (.obj []))) (p ++ k :: q) last leaf := by
  have hchain2 : chainAt (setChain o p (assocSet l k (.obj []))) p =
      some (assocSet l k (.obj [])) := chainAt_setChain p o l _ hchain
  rw [setPath_frame p (k :: q) o l last leaf hchain,
    setPath_frame p (k :: q) _ _ last leaf hchain2,
    setPath_cons_none l k q last leaf hfresh,
    setPath_cons_obj (assocSet l k (.obj [])) k q [] last leaf (assocGet_assocSet_self l k _)]
  cases hr : setPath [] q last leaf with
  | error e => simp [Except.map]
  | ok r =>
    simp only [Except.map]
    rw [assocSet_assocSet, setChain_setChain p o l _ _ hchain]

/-- Re-assigning the value a key already holds changes nothing. -/
theorem assocSet_self {β : Type} :
    ∀ (o : List (String × β)) (a : String) (v : β), assocGet o a = some v →
      assocSet o a v = o
  | [], _, _, h => by cases h
  | (k', v') :: rest, a, v, h => by
    by_cases hk : k' = a
    · subst hk
      rw [assocGet, if_pos rfl] at h
      cases h
      simp [assocSet]
    · rw [assocGet, if_neg hk] at h
      simp only [assocSet, if_neg hk, List.cons.injEq, true_and]
      exact assocSet_self rest a v h

/-- Replacing a chain's end with itself changes nothing. -/
theorem setChain_chainAt_self :
    ∀ (p : List String) (o l : List (String × JsVal)), chainAt o p = some l →
      setChain o p l = o
  | [], o, l, h => (Option.some.inj h).symm
  | a :: p, o, l, h => by
    rcases chainAt_cons o a p l h with ⟨l₀, hget, hrest⟩
    rw [setChain_cons_obj o a p l₀ l hget, setChain_chainAt_self p l₀ l hrest]
    exact assocSet_self o a (.obj l₀) hget

/-- Walking just the interior chain and assigning the leaf splices an
updated sub-object. -/
theorem setPath_chain (p : List String) (o l : List (String × JsVal)) (k : String)
    (leaf : JsVal) (hchain : chainAt o p = some l) :
    setPath o p k leaf = .ok (setChain o p (assocSet l k leaf)) := by
  have hfr := setPath_frame p [] o l k leaf hchain
  rw [List.append_nil] at hfr
  rw [hfr]
  rfl

/-- Direct-order unflattening of a single good primitive leaf. -/
theorem foldConvert_leaf (ts : Int) (m : List (String × MapEntry)) (v : Value) (e : MapEntry)
    (k b : String) (p : List String) (o l : List (String × JsVal))
    (hk : dotFree k = true) (hb : splitDot b = "" :: p)
    (hchain : chainAt o p = some l) (hfresh : assocGet l k = none)
    (hflat : flattenInsert (b ++ "." ++ k) v ts = [(b ++ "." ++ k, e)])
    (hm : assocGet m (b ++ "." ++ k) = some e)
    (hleaf : leafFor e = decorate v ts) :
    List.foldlM (convertStep m) o ((flattenInsert (b ++ "." ++ k) v ts).map Prod.fst) =
      .ok (setChain o p (l ++ [(k, decorate v ts)])) := by
  rw [hflat]
  simp only [List.map_cons, List.map_nil, List.foldlM_cons, List.foldlM_nil]
  have hsplit : splitDot (b ++ "." ++ k) = "" :: p ++ [k] := by
    rw [splitDot_append b k hk, hb]
  rw [convertStep_eq_setPath m o _ e p k hm hsplit,
    setPath_chain p o l k _ hchain, assocSet_none l k _ hfresh, hleaf]
  rfl

mutual

/-- Direct-order unflattening of one good member: folding the member's
flattened keys (in flatten order) into a state whose chain along `p` ends
at `l`, with the member's name fresh in `l`, appends exactly the member's
decorated value. -/
theorem foldConvert_value (ts : Int) (m : List (String × MapEntry)) :
    ∀ (v : Value) (k b : String) (p : List String) (o l : List (String × JsVal)),
      dotFree k = true →
      goodValue (b ++ "." ++ k) v = true →
      splitDot b = "" :: p →
      chainAt o p = some l →
      assocGet l k = none →
      (∀ kv ∈ flattenInsert (b ++ "." ++ k) v ts, assocGet m kv.1 = some kv.2) →
      List.foldlM (convertStep m) o ((flattenInsert (b ++ "." ++ k) v ts).map Prod.fst) =
        .ok (setChain o p (l ++ [(k, decorate v ts)]))
  | .num x, k, b, p, o, l, hk, hg, hb, hchain, hfresh, hm => by
    have hne := append_dot_ne_empty b k
    have hflat : flattenInsert (b ++ "." ++ k) (.num x) ts =
        [(b ++ "." ++ k, ⟨.sNum x, .number, ts⟩)] := by
      rw [flattenInsert_of_good ts _ _ hne hg]
    exact foldConvert_leaf ts m (.num x) ⟨.sNum x, .number, ts⟩ k b p o l hk hb hchain hfresh
      hflat (by rw [hflat] at hm; exact hm _ (List.mem_singleton_self _)) rfl
  | .str str, k, b, p, o, l, hk, hg, hb, hchain, hfresh, hm => by
    have hne := append_dot_ne_empty b k
    have hflat : flattenInsert (b ++ "." ++ k) (.str str) ts =
        [(b ++ "." ++ k, ⟨.sText str, .string, ts⟩)] := by
      rw [flattenInsert_of_good ts _ _ hne hg]
    exact foldConvert_leaf ts m (.str str) ⟨.sText str, .string, ts⟩ k b p o l hk hb hchain hfresh
      hflat (by rw [hflat] at hm; exact hm _ (List.mem_singleton_self _)) rfl
  | .bool bv, k, b, p, o, l, hk, hg, hb, hchain, hfresh, hm => by
    have hne := append_dot_ne_empty b k
    have hflat : flattenInsert (b ++ "." ++ k) (.bool bv) ts =
        [(b ++ "." ++ k, ⟨.sTiny (if bv then 1 else 0), .boolean, ts⟩)] := by
      rw [flattenInsert_of_good ts _ _ hne hg]
    refine foldConvert_leaf ts m (.bool bv) ⟨.sTiny (if bv then 1 else 0), .boolean, ts⟩ k b p
      o l hk hb hchain hfresh hflat
      (by rw [hflat] at hm; exact hm _ (List.mem_singleton_self _)) ?_
    cases bv <;> rfl
  | .date ms, k, b, p, o, l, hk, hg, hb, hchain, hfresh, hm => by
    have hne := append_dot_ne_empty b k
    have hflat : flattenInsert (b ++ "." ++ k) (.date ms) ts =
        [(b ++ "." ++ k, ⟨.sInt ms, .date, ts⟩)] := by
      rw [flattenInsert_of_good ts _ _ hne hg]
    exact foldConvert_leaf ts m (.date ms) ⟨.sInt ms, .date, ts⟩ k b p o l hk hb hchain hfresh
      hflat (by rw [hflat] at hm; exact hm _ (List.mem_singleton_self _)) rfl
  | .arr elems, k, b, p, o, l, hk, hg, hb, hchain, hfresh, hm => by
    have hne := append_dot_ne_empty b k
    have hflat : flattenInsert (b ++ "." ++ k) (.arr elems) ts =
        [(b ++ "." ++ k, ⟨.sJson elems, .array, ts⟩)] := by
      rw [flattenInsert_of_good ts _ _ hne hg]
    exact foldConvert_leaf ts m (.arr elems) ⟨.sJson elems, .array, ts⟩ k b p o l hk hb hchain
      hfresh hflat (by rw [hflat] at hm; exact hm _ (List.mem_singleton_self _)) rfl
  | .nan, k, b, p, o, l, hk, hg, hb, hchain, hfresh, hm => by simp [goodValue] at hg
  | .null, k, b, p, o, l, hk, hg, hb, hchain, hfresh, hm => by simp [goodValue] at hg
  | .undef, k, b, p, o, l, hk, hg, hb, hchain, hfresh, hm => by simp [goodValue] at hg
  | .obj sub, k, b, p, o, l, hk, hg, hb, hchain, hfresh, hm => by
    have hne := append_dot_ne_empty b k
    have hflat : flattenInsert (b ++ "." ++ k) (.obj sub) ts =
        flattenFields (b ++ "." ++ k) sub ts := by
      rw [flattenInsert_of_good ts _ _ hne hg]
    have hgood : goodFields (b ++ "." ++ k) sub = true ∧ ¬ sub.isEmpty = true := by
      simp only [goodValue, Bool.and_eq_true, Bool.not_eq_eq_eq_not, Bool.not_true] at hg
      exact ⟨hg.2, by simp [hg.1]⟩
    have hsplit' : splitDot (b ++ "." ++ k) = "" :: (p ++ [k]) := by
      rw [splitDot_append b k hk, hb]
      rfl
    have hchain1 : chainAt (setChain o p (assocSet l k (.obj []))) p =
        some (assocSet l k (.obj [])) := chainAt_setChain p o l _ hchain
    have hchain' : chainAt (setChain o p (assocSet l k (.obj []))) (p ++ [k]) = some [] := by
      rw [chainAt_append p [k] _ _ hchain1,
        chainAt_cons_obj _ k [] [] (assocGet_assocSet_self l k _)]
      rfl
    have hne_block : flattenFields (b ++ "." ++ k) sub ts ≠ [] := by
      rw [← hflat]
      exact flattenInsert_ne_nil ts (.obj sub) (b ++ "." ++ k) hne hg
    rcases hB : flattenFields (b ++ "." ++ k) sub ts with _ | ⟨⟨key₀, e₀⟩, rest₀⟩
    · exact absurd hB hne_block
    -- first-step state equality: pre-creating the empty sub-object
    have hmem₀ : (key₀, e₀) ∈ flattenFields (b ++ "." ++ k) sub ts := by
      rw [hB]
      exact List.mem_cons_self _ _
    rcases flattenFields_key_shape ts sub (b ++ "." ++ k) hgood.1 (key₀, e₀) hmem₀ with
      ⟨k', t, hk', hshape⟩
    have hm₀ : assocGet m key₀ = some e₀ := by
      rw [hflat] at hm
      exact hm (key₀, e₀) hmem₀
    obtain ⟨q, last', hqt⟩ : ∃ q last', k' :: t = q ++ [last'] :=
      ⟨(k' :: t).dropLast, (k' :: t).getLast (by simp),
        (List.dropLast_append_getLast (by simp)).symm⟩
    have hshape2 : splitDot key₀ = "" :: (p ++ k :: q) ++ [last'] := by
      rw [hshape, hsplit', hqt]
      simp [List.append_assoc]
    have hstep : convertStep m o key₀ =
        convertStep m (setChain o p (assocSet l k (.obj []))) key₀ := by
      rw [convertStep_eq_setPath m o key₀ e₀ _ _ hm₀ hshape2,
        convertStep_eq_setPath m _ key₀ e₀ _ _ hm₀ hshape2]
      exact setPath_precreate p q k _ _ o l hchain hfresh
    -- recursive unflattening of the sub-object from the pre-created state
    have hrec := foldConvert_fields ts m sub (b ++ "." ++ k) (p ++ [k])
      (setChain o p (assocSet l k (.obj []))) [] hgood.1 hsplit' hchain'
      (fun kv _ => rfl) (by rw [hflat] at hm; exact hm)
    rw [hflat, hB]
    rw [hB] at hrec
    simp only [List.map_cons, List.foldlM_cons] at hrec ⊢
    rw [hstep, hrec]
    -- identify the resulting chains
    have hsetapp : setChain (setChain o p (assocSet l k (.obj []))) (p ++ [k])
        ([] ++ decorateFields sub ts) = setChain o p (l ++ [(k, decorate (.obj sub) ts)]) := by
      rw [List.nil_append,
        setChain_append p [k] _ _ _ hchain1,
        setChain_cons_obj _ k [] [] _ (assocGet_assocSet_self l k _),
        setChain_setChain p o l _ _ hchain,
        show setChain ([] : List (String × JsVal)) [] (decorateFields sub ts) =
          decorateFields sub ts from rfl,
        assocSet_assocSet, assocSet_none l k _ hfresh]
      rfl
    rw [hsetapp]

/-- Direct-order unflattening of a good member list. -/
theorem foldConvert_fields (ts : Int) (m : List (String × MapEntry)) :
    ∀ (kvs : List (String × Value)) (b : String) (p : List String)
      (o l : List (String × JsVal)),
      goodFields b kvs = true →
      splitDot b = "" :: p →
      chainAt o p = some l →
      (∀ kv ∈ kvs, assocGet l kv.1 = none) →
      (∀ kv ∈ flattenFields b kvs ts, assocGet m kv.1 = some kv.2) →
      List.foldlM (convertStep m) o ((flattenFields b kvs ts).map Prod.fst) =
        .ok (setChain o p (l ++ decorateFields kvs ts))
  | [], b, p, o, l, _, hb, hchain, _, _ => by
    show Except.ok o = _
    rw [show decorateFields [] ts = [] from rfl, List.append_nil,
      setChain_chainAt_self p o l hchain]
  | (k, v) :: rest, b, p, o, l, hg, hb, hchain, hfresh, hm => by
    simp only [goodFields, Bool.and_eq_true, decide_eq_true_eq, List.all_eq_true] at hg
    show List.foldlM (convertStep m) o
      ((flattenInsert (b ++ "." ++ k) v ts ++ flattenFields b rest ts).map Prod.fst) = _
    rw [List.map_append, List.foldlM_append]
    have h1 := foldConvert_value ts m v k b p o l hg.1.1.1 hg.1.2 hb hchain
      (hfresh (k, v) (List.mem_cons_self _ _))
      (fun kv hkv => hm kv (List.mem_append_left _ hkv))
    rw [h1]
    have hchain2 : chainAt (setChain o p (l ++ [(k, decorate v ts)])) p =
        some (l ++ [(k, decorate v ts)]) := chainAt_setChain p o l _ hchain
    have h2 := foldConvert_fields ts m rest b p
      (setChain o p (l ++ [(k, decorate v ts)])) (l ++ [(k, decorate v ts)])
      hg.2 hb hchain2 ?hfresh2 (fun kv hkv => hm kv (List.mem_append_right _ hkv))
    case hfresh2 =>
      intro kv hkv
      rw [assocGet_append, hfresh kv (List.mem_cons_of_mem _ hkv)]
      have hne : ¬ k = kv.1 := fun hh => (hg.1.1.2 kv hkv) hh.symm
      show assocGet [(k, decorate v ts)] kv.1 = none
      rw [assocGet, if_neg hne]
      rfl
    show (Except.ok (setChain o p (l ++ [(k, decorate v ts)])) >>= fun b' =>
      List.foldlM (convertStep m) b' ((flattenFields b rest ts).map Prod.fst)) = _
    rw [show ∀ (x : List (String × JsVal)) (g : List (String × JsVal) →
        Except Err (List (String × JsVal))), (Except.ok x >>= g) = g x from fun _ _ => rfl]
    rw [h2, setChain_setChain p o l _ _ hchain]
    rw [List.append_assoc]
    rfl

end

/- ### Well-formedness of the built objects -/

/-- Members of an updated association list. -/
theorem mem_assocSet {β : Type} :
    ∀ (l : List (String × β)) (k : String) (v : β) (kv : String × β),
      kv ∈ assocSet l k v → kv = (k, v) ∨ kv ∈ l
  | [], k, v, kv, h => by
    rcases List.mem_singleton.mp h with rfl
    exact Or.inl rfl
  | (k', v') :: rest, k, v, kv, h => by
    by_cases hk : k' = k
    · rw [assocSet, if_pos hk] at h
      rcases List.mem_cons.mp h with rfl | h
      · exact Or.inl rfl
      · exact Or.inr (List.mem_cons_of_mem _ h)
    · rw [assocSet, if_neg hk] at h
      rcases List.mem_cons.mp h with rfl | h
      · exact Or.inr (List.mem_cons_self _ _)
      · rcases mem_assocSet rest k v kv h with h | h
        · exact Or.inl h
        · exact Or.inr (List.mem_cons_of_mem _ h)

/-- Updating with a well-formed value preserves field well-formedness. -/
theorem assocSet_wf :
    ∀ (l : List (String × JsVal)) (k : String) (v : JsVal),
      wfFields l = true → wfVal v = true → wfFields (assocSet l k v) = true
  | [], k, v, _, hv => by simp [assocSet, wfFields, hv]
  | (k', v') :: rest, k, v, hl, hv => by
    simp only [wfFields, Bool.and_eq_true, List.all_eq_true, decide_eq_true_eq] at hl
    by_cases hk : k' = k
    · rw [assocSet, if_pos hk]
      simp only [wfFields, Bool.and_eq_true, List.all_eq_true, decide_eq_true_eq]
      subst hk
      exact ⟨⟨hl.1.1, hv⟩, hl.2⟩
    · rw [assocSet, if_neg hk]
      simp only [wfFields, Bool.and_eq_true, List.all_eq_true, decide_eq_true_eq]
      refine ⟨⟨?_, hl.1.2⟩, assocSet_wf rest k v hl.2 hv⟩
      intro kv hkv
      rcases mem_assocSet rest k v kv hkv with rfl | hkv
      · exact fun hh => hk hh.symm
      · exact hl.1.1 kv hkv

/-- Values stored in a well-formed field list are well-formed. -/
theorem wfVal_of_mem :
    ∀ (l : List (String × JsVal)) (kv : String × JsVal),
      wfFields l = true → kv ∈ l → wfVal kv.2 = true
  | [], kv, _, h => absurd h (List.not_mem_nil kv)
  | (k', v') :: rest, kv, hl, h => by
    simp only [wfFields, Bool.and_eq_true] at hl
    rcases List.mem_cons.mp h with rfl | h
    · exact hl.1.2
    · exact wfVal_of_mem rest kv hl.2 h

/-- A successful lookup in a well-formed field list is well-formed. -/
theorem wfVal_assocGet (l : List (String × JsVal)) (k : String) (v : JsVal)
    (hl : wfFields l = true) (h : assocGet l k = some v) : wfVal v = true :=
  wfVal_of_mem l (k, v) hl (assocGet_mem l k v h)

/-- A walk stepping onto an existing entry that is not a plain object
fails. -/
theorem setPath_cons_notobj (o : List (String × JsVal)) (f : String) (rest : List String)
    (last : String) (leaf : JsVal) (v : JsVal) (hget : assocGet o f = some v)
    (hno : ∀ l, v ≠ .obj l) :
    ∃ err, setPath o (f :: rest) last leaf = .error err := by
  have hshow : setPath o (f :: rest) last leaf =
      (match assocGet o f with
        | some (.obj l) => (setPath l rest last leaf).map fun l' => assocSet o f (.obj l')
        | some (.num _) => Except.error .structuralConflict
        | some (.str _) => Except.error .structuralConflict
        | some (.bool _) => Except.error .structuralConflict
        | some (.date _) => Except.error .unmodelledMutation
        | some (.arr _) => Except.error .unmodelledMutation
        | some .null => Except.error .unmodelledMutation
        | none => (setPath [] rest last leaf).map fun l' => assocSet o f (.obj l')) := rfl
  rw [hshow, hget]
  cases v with
  | obj l => exact absurd rfl (hno l)
  | num n => exact ⟨_, rfl⟩
  | str s => exact ⟨_, rfl⟩
  | bool b => exact ⟨_, rfl⟩
  | date ms => exact ⟨_, rfl⟩
  | arr elems => exact ⟨_, rfl⟩
  | null => exact ⟨_, rfl⟩

/-- An unflatten walk from a well-formed state with a well-formed leaf
yields a well-formed state. -/
theorem setPath_wf :
    ∀ (segs : List String) (o : List (String × JsVal)) (last : String) (leaf : JsVal)
      (r : List (String × JsVal)), wfFields o = true → wfVal leaf = true →
      setPath o segs last leaf = .ok r → wfFields r = true
  | [], o, last, leaf, r, ho, hleaf, h => by
    rcases Except.ok.inj h with rfl
    exact assocSet_wf o last leaf ho hleaf
  | f :: rest, o, last, leaf, r, ho, hleaf, h => by
    rcases hget : assocGet o f with _ | v
    · rw [setPath_cons_none o f rest last leaf hget] at h
      rcases hr : setPath [] rest last leaf with e | r'
      · rw [hr] at h
        cases h
      · rw [hr] at h
        rcases Except.ok.inj h with rfl
        have hwf' := setPath_wf rest [] last leaf r' rfl hleaf hr
        exact assocSet_wf o f (.obj r') ho hwf'
    · by_cases hobj : ∃ l, v = .obj l
      · obtain ⟨l, rfl⟩ := hobj
        rw [setPath_cons_obj o f rest l last leaf hget] at h
        rcases hr : setPath l rest last leaf with e | r'
        · rw [hr] at h
          cases h
        · rw [hr] at h
          rcases Except.ok.inj h with rfl
          have hwf' := setPath_wf rest l last leaf r' (wfVal_assocGet o f _ ho hget) hleaf hr
          exact assocSet_wf o f (.obj r') ho hwf'
      · push_neg at hobj
        obtain ⟨err, herr⟩ := setPath_cons_notobj o f rest last leaf v hget hobj
        rw [herr] at h
        cases h

/- ### The equivalence up to attribute order: reflexivity, transitivity -/

mutual

/-- Equivalence is reflexive on well-formed values. -/
theorem jsEquiv_refl : ∀ (v : JsVal), wfVal v = true → jsEquiv v v = true
  | .num n, _ => by simp [jsEquiv]
  | .str s, _ => by simp [jsEquiv]
  | .bool b, _ => by simp [jsEquiv]
  | .null, _ => rfl
  | .date ms, _ => by simp [jsEquiv]
  | .arr elems, h => by
    show jsEquivList elems elems = true
    exact jsEquivList_refl elems (by simpa [wfVal] using h)
  | .obj fields, h => by
    show (jsEquivFields fields fields && jsEquivKeys fields fields) = true
    have hwf : wfFields fields = true := by simpa [wfVal] using h
    rw [jsEquivFields_refl_aux fields fields hwf
      (fun kv hkv => assocGet_of_mem_nodup fields kv.1 kv.2 hwf hkv)]
    simp only [Bool.true_and, jsEquivKeys, List.all_eq_true]
    intro kv hkv
    rw [assocGet_of_mem_nodup fields kv.1 kv.2 hwf hkv]
    rfl

/-- Element-wise reflexivity on well-formed lists. -/
theorem jsEquivList_refl : ∀ (l : List JsVal), wfValList l = true → jsEquivList l l = true
  | [], _ => rfl
  | v :: rest, h => by
    simp only [wfValList, Bool.and_eq_true] at h
    show (jsEquiv v v && jsEquivList rest rest) = true
    rw [jsEquiv_refl v h.1, jsEquivList_refl rest h.2]
    rfl

/-- Member-wise side of reflexivity: each member of a sub-list is found
with an equal value. -/
theorem jsEquivFields_refl_aux :
    ∀ (sub whole : List (String × JsVal)), wfFields sub = true →
      (∀ kv ∈ sub, assocGet whole kv.1 = some kv.2) →
      jsEquivFields sub whole = true
  | [], _, _, _ => rfl
  | (k, v) :: rest, whole, hwf, hget => by
    simp only [wfFields, Bool.and_eq_true] at hwf
    show ((match assocGet whole k with
      | some w => jsEquiv v w
      | none => false) && jsEquivFields rest whole) = true
    rw [hget (k, v) (List.mem_cons_self _ _)]
    show (jsEquiv v v && jsEquivFields rest whole) = true
    rw [jsEquiv_refl v hwf.1.2,
      jsEquivFields_refl_aux rest whole hwf.2 (fun kv hkv => hget kv (List.mem_cons_of_mem _ hkv))]
    rfl

end

/-- A member of the left side of a member-wise equivalence is present on
the right with an equivalent value. -/
theorem jsEquivFields_mem :
    ∀ (a b : List (String × JsVal)) (kv : String × JsVal), jsEquivFields a b = true →
      kv ∈ a → ∃ w, assocGet b kv.1 = some w ∧ jsEquiv kv.2 w = true
  | [], _, kv, _, hmem => absurd hmem (List.not_mem_nil kv)
  | (k, v) :: rest, b, kv, h, hmem => by
    have hsplit : (match assocGet b k with
        | some w => jsEquiv v w
        | none => false) = true ∧ jsEquivFields rest b = true := by
      have : ((match assocGet b k with
        | some w => jsEquiv v w
        | none => false) && jsEquivFields rest b) = true := h
      exact Bool.and_eq_true_iff.mp this
    rcases List.mem_cons.mp hmem with rfl | hmem
    · rcases hget : assocGet b k with _ | w
      · rw [hget] at hsplit
        exact absurd hsplit.1 (by simp)
      · rw [hget] at hsplit
        exact ⟨w, rfl, hsplit.1⟩
    · exact jsEquivFields_mem rest b kv hsplit.2 hmem

/-- Lookup-level reading of a full object equivalence. -/
theorem objEquiv_lookup (a b : List (String × JsVal)) (h : objEquiv a b = true) (f : String) :
    (assocGet a f = none ∧ assocGet b f = none) ∨
      (∃ v w, assocGet a f = some v ∧ assocGet b f = some w ∧ jsEquiv v w = true) := by
  have hf : jsEquivFields a b = true := (Bool.and_eq_true_iff.mp h).1
  have hk : jsEquivKeys b a = true := (Bool.and_eq_true_iff.mp h).2
  rcases hga : assocGet a f with _ | v
  · rcases hgb : assocGet b f with _ | w
    · exact Or.inl ⟨rfl, rfl⟩
    · exfalso
      have hmem := assocGet_mem b f w hgb
      have := (List.all_eq_true.mp hk) (f, w) hmem
      simp only [Option.isSome] at this
      rw [hga] at this
      cases this
  · rcases jsEquivFields_mem a b (f, v) hf (assocGet_mem a f v hga) with ⟨w, hgb, hvw⟩
    exact Or.inr ⟨v, w, rfl, hgb, hvw⟩

/-- Member-wise equivalence from a pointwise lookup relation. -/
theorem jsEquivFields_of_lookup :
    ∀ (sub b : List (String × JsVal)),
      (∀ kv ∈ sub, ∃ w, assocGet b kv.1 = some w ∧ jsEquiv kv.2 w = true) →
      jsEquivFields sub b = true
  | [], _, _ => rfl
  | (k, v) :: rest, b, h => by
    show ((match assocGet b k with
      | some w => jsEquiv v w
      | none => false) && jsEquivFields rest b) = true
    rcases h (k, v) (List.mem_cons_self _ _) with ⟨w, hget, hvw⟩
    rw [hget]
    show (jsEquiv v w && jsEquivFields rest b) = true
    rw [show jsEquiv v w = true from hvw,
      jsEquivFields_of_lookup rest b (fun kv hkv => h kv (List.mem_cons_of_mem _ hkv))]
    rfl

/-- Any member key of an association list has some first binding. -/
theorem assocGet_first_of_mem {β : Type} :
    ∀ (l : List (String × β)) (kv : String × β), kv ∈ l → ∃ w, assocGet l kv.1 = some w
  | [], kv, h => absurd h (List.not_mem_nil kv)
  | (k', v') :: rest, kv, h => by
    by_cases hk : k' = kv.1
    · exact ⟨v', by rw [assocGet, if_pos hk]⟩
    · rcases List.mem_cons.mp h with rfl | h
      · exact absurd rfl hk
      · rcases assocGet_first_of_mem rest kv h with ⟨w, hw⟩
        exact ⟨w, by rw [assocGet, if_neg hk]; exact hw⟩

/-- Full object equivalence from a pointwise lookup relation (the left side
well-formed so its members are reachable by lookup). -/
theorem objEquiv_of_lookup (a b : List (String × JsVal)) (hwa : wfFields a = true)
    (h : ∀ f, (assocGet a f = none ∧ assocGet b f = none) ∨
      (∃ v w, assocGet a f = some v ∧ assocGet b f = some w ∧ jsEquiv v w = true)) :
    objEquiv a b = true := by
  unfold objEquiv
  have h1 : jsEquivFields a b = true := by
    apply jsEquivFields_of_lookup
    intro kv hkv
    have hga : assocGet a kv.1 = some kv.2 := assocGet_of_mem_nodup a kv.1 kv.2 hwa hkv
    rcases h kv.1 with ⟨hn, _⟩ | ⟨v, w, hva, hwb, hvw⟩
    · rw [hga] at hn
      cases hn
    · rw [hga] at hva
      rcases Option.some.inj hva with rfl
      exact ⟨w, hwb, hvw⟩
  have h2 : jsEquivKeys b a = true := by
    simp only [jsEquivKeys, List.all_eq_true]
    intro kv hkv
    rcases assocGet_first_of_mem b kv hkv with ⟨w, hw⟩
    rcases h kv.1 with ⟨_, hnb⟩ | ⟨v, w2, hva, _, _⟩
    · rw [hw] at hnb
      cases hnb
    · rw [hva]
      rfl
  rw [h1, h2]
  rfl

/- ### Transitivity of the equivalence -/

/-- Key inclusion is transitive. -/
theorem jsEquivKeys_trans (c b a : List (String × JsVal))
    (hcb : jsEquivKeys c b = true) (hba : jsEquivKeys b a = true) :
    jsEquivKeys c a = true := by
  simp only [jsEquivKeys, List.all_eq_true] at hcb hba ⊢
  intro kv hkv
  have h1 := hcb kv hkv
  rcases hg : assocGet b kv.1 with _ | w
  · rw [hg] at h1
    cases h1
  · exact hba (kv.1, w) (assocGet_mem b kv.1 w hg)

mutual

/-- Equivalence of runtime values is transitive. -/
theorem jsEquiv_trans : ∀ (a b c : JsVal), jsEquiv a b = true → jsEquiv b c = true →
    jsEquiv a c = true
  | .num x, .num y, .num z, hab, hbc => by
    show (x == z) = true
    have h1 : x = y := by simpa [jsEquiv] using hab
    have h2 : y = z := by simpa [jsEquiv] using hbc
    simp [h1, h2]
  | .num _, .str _, _, hab, _ => Bool.noConfusion hab
  | .num _, .bool _, _, hab, _ => Bool.noConfusion hab
  | .num _, .null, _, hab, _ => Bool.noConfusion hab
  | .num _, .date _, _, hab, _ => Bool.noConfusion hab
  | .num _, .arr _, _, hab, _ => Bool.noConfusion hab
  | .num _, .obj _, _, hab, _ => Bool.noConfusion hab
  | .num _, .num _, .str _, _, hbc => Bool.noConfusion hbc
  | .num _, .num _, .bool _, _, hbc => Bool.noConfusion hbc
  | .num _, .num _, .null, _, hbc => Bool.noConfusion hbc
  | .num _, .num _, .date _, _, hbc => Bool.noConfusion hbc
  | .num _, .num _, .arr _, _, hbc => Bool.noConfusion hbc
  | .num _, .num _, .obj _, _, hbc => Bool.noConfusion hbc
  | .str x, .str y, .str z, hab, hbc => by
    show (x == z) = true
    have h1 : x = y := by simpa [jsEquiv] using hab
    have h2 : y = z := by simpa [jsEquiv] using hbc
    simp [h1, h2]
  | .str _, .num _, _, hab, _ => Bool.noConfusion hab
  | .str _, .bool _, _, hab, _ => Bool.noConfusion hab
  | .str _, .null, _, hab, _ => Bool.noConfusion hab
  | .str _, .date _, _, hab, _ => Bool.noConfusion hab
  | .str _, .arr _, _, hab, _ => Bool.noConfusion hab
  | .str _, .obj _, _, hab, _ => Bool.noConfusion hab
  | .str _, .str _, .num _, _, hbc => Bool.noConfusion hbc
  | .str _, .str _, .bool _, _, hbc => Bool.noConfusion hbc
  | .str _, .str _, .null, _, hbc => Bool.noConfusion hbc
  | .str _, .str _, .date _, _, hbc => Bool.noConfusion hbc
  | .str _, .str _, .arr _, _, hbc => Bool.noConfusion hbc
  | .str _, .str _, .obj _, _, hbc => Bool.noConfusion hbc
  | .bool x, .bool y, .bool z, hab, hbc => by
    show (x == z) = true
    have h1 : x = y := by simpa [jsEquiv] using hab
    have h2 : y = z := by simpa [jsEquiv] using hbc
    simp [h1, h2]
  | .bool _, .num _, _, hab, _ => Bool.noConfusion hab
  | .bool _, .str _, _, hab, _ => Bool.noConfusion hab
  | .bool _, .null, _, hab, _ => Bool.noConfusion hab
  | .bool _, .date _, _, hab, _ => Bool.noConfusion hab
  | .bool _, .arr _, _, hab, _ => Bool.noConfusion hab
  | .bool _, .obj _, _, hab, _ => Bool.noConfusion hab
  | .bool _, .bool _, .num _, _, hbc => Bool.noConfusion hbc
  | .bool _, .bool _, .str _, _, hbc => Bool.noConfusion hbc
  | .bool _, .bool _, .null, _, hbc => Bool.noConfusion hbc
  | .bool _, .bool _, .date _, _, hbc => Bool.noConfusion hbc
  | .bool _, .bool _, .arr _, _, hbc => Bool.noConfusion hbc
  | .bool _, .bool _, .obj _, _, hbc => Bool.noConfusion hbc
  | .null, .null, .null, _, _ => rfl
  | .null, .num _, _, hab, _ => Bool.noConfusion hab
  | .null, .str _, _, hab, _ => Bool.noConfusion hab
  | .null, .bool _, _, hab, _ => Bool.noConfusion hab
  | .null, .date _, _, hab, _ => Bool.noConfusion hab
  | .null, .arr _, _, hab, _ => Bool.noConfusion hab
  | .null, .obj _, _, hab, _ => Bool.noConfusion hab
  | .null, .null, .num _, _, hbc => Bool.noConfusion hbc
  | .null, .null, .str _, _, hbc => Bool.noConfusion hbc
  | .null, .null, .bool _, _, hbc => Bool.noConfusion hbc
  | .null, .null, .date _, _, hbc => Bool.noConfusion hbc
  | .null, .null, .arr _, _, hbc => Bool.noConfusion hbc
  | .null, .null, .obj _, _, hbc => Bool.noConfusion hbc
  | .date x, .date y, .date z, hab, hbc => by
    show (x == z) = true
    have h1 : x = y := by simpa [jsEquiv] using hab
    have h2 : y = z := by simpa [jsEquiv] using hbc
    simp [h1, h2]
  | .date _, .num _, _, hab, _ => Bool.noConfusion hab
  | .date _, .str _, _, hab, _ => Bool.noConfusion hab
  | .date _, .bool _, _, hab, _ => Bool.noConfusion hab
  | .date _, .null, _, hab, _ => Bool.noConfusion hab
  | .date _, .arr _, _, hab, _ => Bool.noConfusion hab
  | .date _, .obj _, _, hab, _ => Bool.noConfusion hab
  | .date _, .date _, .num _, _, hbc => Bool.noConfusion hbc
  | .date _, .date _, .str _, _, hbc => Bool.noConfusion hbc
  | .date _, .date _, .bool _, _, hbc => Bool.noConfusion hbc
  | .date _, .date _, .null, _, hbc => Bool.noConfusion hbc
  | .date _, .date _, .arr _, _, hbc => Bool.noConfusion hbc
  | .date _, .date _, .obj _, _, hbc => Bool.noConfusion hbc
  | .arr x, .arr y, .arr z, hab, hbc => by
    show jsEquivList x z = true
    exact jsEquivList_trans x y z hab hbc
  | .arr _, .num _, _, hab, _ => Bool.noConfusion hab
  | .arr _, .str _, _, hab, _ => Bool.noConfusion hab
  | .arr _, .bool _, _, hab, _ => Bool.noConfusion hab
  | .arr _, .null, _, hab, _ => Bool.noConfusion hab
  | .arr _, .date _, _, hab, _ => Bool.noConfusion hab
  | .arr _, .obj _, _, hab, _ => Bool.noConfusion hab
  | .arr _, .arr _, .num _, _, hbc => Bool.noConfusion hbc
  | .arr _, .arr _, .str _, _, hbc => Bool.noConfusion hbc
  | .arr _, .arr _, .bool _, _, hbc => Bool.noConfusion hbc
  | .arr _, .arr _, .null, _, hbc => Bool.noConfusion hbc
  | .arr _, .arr _, .date _, _, hbc => Bool.noConfusion hbc
  | .arr _, .arr _, .obj _, _, hbc => Bool.noConfusion hbc
  | .obj fa, .obj fb, .obj fc, hab, hbc => by
    show (jsEquivFields fa fc && jsEquivKeys fc fa) = true
    have h1 := Bool.and_eq_true_iff.mp (show (jsEquivFields fa fb && jsEquivKeys fb fa) = true from hab)
    have h2 := Bool.and_eq_true_iff.mp (show (jsEquivFields fb fc && jsEquivKeys fc fb) = true from hbc)
    rw [jsEquivFields_trans fa fb fc h1.1 h2.1, jsEquivKeys_trans fc fb fa h2.2 h1.2]
    rfl
  | .obj _, .num _, _, hab, _ => Bool.noConfusion hab
  | .obj _, .str _, _, hab, _ => Bool.noConfusion hab
  | .obj _, .bool _, _, hab, _ => Bool.noConfusion hab
  | .obj _, .null, _, hab, _ => Bool.noConfusion hab
  | .obj _, .date _, _, hab, _ => Bool.noConfusion hab
  | .obj _, .arr _, _, hab, _ => Bool.noConfusion hab
  | .obj _, .obj _, .num _, _, hbc => Bool.noConfusion hbc
  | .obj _, .obj _, .str _, _, hbc => Bool.noConfusion hbc
  | .obj _, .obj _, .bool _, _, hbc => Bool.noConfusion hbc
  | .obj _, .obj _, .null, _, hbc => Bool.noConfusion hbc
  | .obj _, .obj _, .date _, _, hbc => Bool.noConfusion hbc
  | .obj _, .obj _, .arr _, _, hbc => Bool.noConfusion hbc

/-- Element-wise transitivity for arrays. -/
theorem jsEquivList_trans : ∀ (x y z : List JsVal), jsEquivList x y = true →
    jsEquivList y z = true → jsEquivList x z = true
  | [], [], [], _, _ => rfl
  | [], [], _ :: _, _, hbc => Bool.noConfusion hbc
  | [], _ :: _, _, hab, _ => Bool.noConfusion hab
  | _ :: _, [], _, hab, _ => Bool.noConfusion hab
  | _ :: _, _ :: _, [], _, hbc => Bool.noConfusion hbc
  | a :: as, b :: bs, c :: cs, hab, hbc => by
    have h1 := Bool.and_eq_true_iff.mp (show (jsEquiv a b && jsEquivList as bs) = true from hab)
    have h2 := Bool.and_eq_true_iff.mp (show (jsEquiv b c && jsEquivList bs cs) = true from hbc)
    show (jsEquiv a c && jsEquivList as cs) = true
    rw [jsEquiv_trans a b c h1.1 h2.1, jsEquivList_trans as bs cs h1.2 h2.2]
    rfl

/-- Member-wise transitivity for objects. -/
theorem jsEquivFields_trans : ∀ (fa fb fc : List (String × JsVal)),
    jsEquivFields fa fb = true → jsEquivFields fb fc = true → jsEquivFields fa fc = true
  | [], _, _, _, _ => rfl
  | (k, v) :: rest, fb, fc, hab, hbc => by
    have h1 := Bool.and_eq_true_iff.mp (show ((match assocGet fb k with
      | some w => jsEquiv v w
      | none => false) && jsEquivFields rest fb) = true from hab)
    show ((match assocGet fc k with
      | some u => jsEquiv v u
      | none => false) && jsEquivFields rest fc) = true
    rcases hg : assocGet fb k with _ | w
    · rw [hg] at h1
      exact absurd h1.1 (by simp)
    · rw [hg] at h1
      rcases jsEquivFields_mem fb fc (k, w) hbc (assocGet_mem fb k w hg) with ⟨u, hgu, hwu⟩
      rw [hgu]
      have hvu := jsEquiv_trans v w u h1.1 hwu
      show (jsEquiv v u && jsEquivFields rest fc) = true
      rw [hvu, jsEquivFields_trans rest fb fc h1.2 hbc]
      rfl

end

/- ### Congruence and commutation of the unflatten walk -/

/-- Object equivalence is reflexive on well-formed field lists. -/
theorem objEquiv_refl (a : List (String × JsVal)) (hw : wfFields a = true) :
    objEquiv a a = true :=
  jsEquiv_refl (.obj a) hw

/-- Object equivalence is transitive. -/
theorem objEquiv_trans (a b c : List (String × JsVal)) (h1 : objEquiv a b = true)
    (h2 : objEquiv b c = true) : objEquiv a c = true :=
  jsEquiv_trans (.obj a) (.obj b) (.obj c) h1 h2

/-- Outcome equivalence is transitive. -/
theorem exceptEquiv_trans :
    ∀ (x y z : Except Err (List (String × JsVal))), exceptEquiv x y = true →
      exceptEquiv y z = true → exceptEquiv x z = true
  | .ok a, .ok b, .ok c, h1, h2 => objEquiv_trans a b c h1 h2
  | .error _, .error _, .error _, _, _ => rfl
  | .ok _, .error _, _, h1, _ => Bool.noConfusion h1
  | .error _, .ok _, _, h1, _ => Bool.noConfusion h1
  | .ok _, .ok _, .error _, _, h2 => Bool.noConfusion h2
  | .error _, .error _, .ok _, _, h2 => Bool.noConfusion h2

/-- Bind on a success reduces to the continuation. -/
theorem exbind_ok (a : List (String × JsVal))
    (g : List (String × JsVal) → Except Err (List (String × JsVal))) :
    (Except.ok a >>= g : Except Err (List (String × JsVal))) = g a := rfl

/-- Bind on a failure short-circuits. -/
theorem exbind_err (e : Err)
    (g : List (String × JsVal) → Except Err (List (String × JsVal))) :
    (Except.error e >>= g : Except Err (List (String × JsVal))) = .error e := rfl

/-- Map on a success applies the function. -/
theorem exmap_ok (a : List (String × JsVal))
    (g : List (String × JsVal) → List (String × JsVal)) :
    (Except.ok a : Except Err (List (String × JsVal))).map g = .ok (g a) := rfl

/-- Map on a failure short-circuits. -/
theorem exmap_err (e : Err) (g : List (String × JsVal) → List (String × JsVal)) :
    (Except.error e : Except Err (List (String × JsVal))).map g = .error e := rfl

/-- A value equivalent to a non-object is not an object. -/
theorem jsEquiv_not_obj :
    ∀ (v w : JsVal), jsEquiv v w = true → (∀ l, v ≠ JsVal.obj l) →
      ∀ l, w ≠ JsVal.obj l
  | .obj l', _, _, hno => absurd rfl (hno l')
  | .num _, w, h, _ => by
    intro l hl
    subst hl
    exact Bool.noConfusion h
  | .str _, w, h, _ => by
    intro l hl
    subst hl
    exact Bool.noConfusion h
  | .bool _, w, h, _ => by
    intro l hl
    subst hl
    exact Bool.noConfusion h
  | .null, w, h, _ => by
    intro l hl
    subst hl
    exact Bool.noConfusion h
  | .date _, w, h, _ => by
    intro l hl
    subst hl
    exact Bool.noConfusion h
  | .arr _, w, h, _ => by
    intro l hl
    subst hl
    exact Bool.noConfusion h

/-- Updating equivalent states at one key with equivalent values yields
equivalent states. -/
theorem assocSet_cong (o₁ o₂ : List (String × JsVal)) (k : String) (v₁ v₂ : JsVal)
    (hw₁ : wfFields o₁ = true) (hv₁ : wfVal v₁ = true)
    (heq : objEquiv o₁ o₂ = true) (hvv : jsEquiv v₁ v₂ = true) :
    objEquiv (assocSet o₁ k v₁) (assocSet o₂ k v₂) = true := by
  apply objEquiv_of_lookup _ _ (assocSet_wf o₁ k v₁ hw₁ hv₁)
  intro f
  rw [assocGet_assocSet, assocGet_assocSet]
  by_cases hk : k = f
  · simp only [if_pos hk]
    exact Or.inr ⟨v₁, v₂, rfl, rfl, hvv⟩
  · simp only [if_neg hk]
    exact objEquiv_lookup o₁ o₂ heq f

/-- Updates at two distinct keys commute up to attribute order. -/
theorem assocSet_comm_ne (o : List (String × JsVal)) (k₁ k₂ : String) (v₁ v₂ : JsVal)
    (hne : k₁ ≠ k₂) (hw : wfFields o = true) (hv₁ : wfVal v₁ = true) (hv₂ : wfVal v₂ = true) :
    objEquiv (assocSet (assocSet o k₁ v₁) k₂ v₂) (assocSet (assocSet o k₂ v₂) k₁ v₁) = true := by
  apply objEquiv_of_lookup _ _
    (assocSet_wf _ k₂ v₂ (assocSet_wf o k₁ v₁ hw hv₁) hv₂)
  intro f
  rw [assocGet_assocSet, assocGet_assocSet, assocGet_assocSet, assocGet_assocSet]
  by_cases h2 : k₂ = f
  · have h1 : ¬ k₁ = f := fun hh => hne (hh.trans h2.symm)
    simp only [if_pos h2, if_neg h1]
    exact Or.inr ⟨v₂, v₂, rfl, rfl, jsEquiv_refl v₂ hv₂⟩
  · by_cases h1 : k₁ = f
    · simp only [if_neg h2, if_pos h1]
      exact Or.inr ⟨v₁, v₁, rfl, rfl, jsEquiv_refl v₁ hv₁⟩
    · simp only [if_neg h2, if_neg h1]
      rcases hg : assocGet o f with _ | v
      · exact Or.inl ⟨rfl, rfl⟩
      · exact Or.inr ⟨v, v, rfl, rfl, jsEquiv_refl v (wfVal_assocGet o f v hw hg)⟩

/-- The sub-object a walk step descends into: a present plain object, or a
fresh empty one for a missing key; `none` when the step would fail. -/
def subAt (o : List (String × JsVal)) (f : String) :
    Option (List (String × JsVal)) :=
  match assocGet o f with
  | none => some []
  | some (.obj l) => some l
  | some _ => none

/-- A walk step with an available sub-object maps the sub-walk under an
update at the stepped key. -/
theorem setPath_cons_sub (o : List (String × JsVal)) (f : String) (rest : List String)
    (last : String) (leaf : JsVal) (l : List (String × JsVal))
    (h : subAt o f = some l) :
    setPath o (f :: rest) last leaf =
      (setPath l rest last leaf).map fun l' => assocSet o f (.obj l') := by
  unfold subAt at h
  rcases hget : assocGet o f with _ | v
  · rw [hget] at h
    rcases Option.some.inj h with rfl
    exact setPath_cons_none o f rest last leaf hget
  · rw [hget] at h
    cases v with
    | obj l₀ =>
      rcases Option.some.inj h with rfl
      exact setPath_cons_obj o f rest l₀ last leaf hget
    | num n => cases h
    | str s => cases h
    | bool b => cases h
    | date ms => cases h
    | arr elems => cases h
    | null => cases h

/-- A walk step with no available sub-object fails. -/
theorem setPath_cons_noSub (o : List (String × JsVal)) (f : String) (rest : List String)
    (last : String) (leaf : JsVal) (h : subAt o f = none) :
    ∃ err, setPath o (f :: rest) last leaf = .error err := by
  unfold subAt at h
  rcases hget : assocGet o f with _ | v
  · rw [hget] at h
    cases h
  · rw [hget] at h
    refine setPath_cons_notobj o f rest last leaf v hget ?_
    intro l hl
    subst hl
    cases h

/-- The available sub-object is unchanged by an update at a different
key. -/
theorem subAt_assocSet_ne (o : List (String × JsVal)) (f g : String) (v : JsVal)
    (h : ¬ g = f) : subAt (assocSet o g v) f = subAt o f := by
  unfold subAt
  rw [assocGet_assocSet, if_neg h]

/-- The available sub-object after planting an object at the stepped key. -/
theorem subAt_assocSet_self (o : List (String × JsVal)) (f : String)
    (l : List (String × JsVal)) : subAt (assocSet o f (.obj l)) f = some l := by
  unfold subAt
  rw [assocGet_assocSet_self]

/-- An available sub-object of a well-formed state is well-formed. -/
theorem subAt_wf (o : List (String × JsVal)) (f : String) (l : List (String × JsVal))
    (hw : wfFields o = true) (h : subAt o f = some l) : wfFields l = true := by
  unfold subAt at h
  rcases hget : assocGet o f with _ | v
  · rw [hget] at h
    rcases Option.some.inj h with rfl
    rfl
  · rw [hget] at h
    cases v with
    | obj l₀ =>
      rcases Option.some.inj h with rfl
      exact wfVal_assocGet o f _ hw hget
    | num n => cases h
    | str s => cases h
    | bool b => cases h
    | date ms => cases h
    | arr elems => cases h
    | null => cases h

/-- The unflatten walk is a congruence for state equivalence: from
equivalent well-formed states the walk fails together or succeeds with
equivalent states. -/
theorem setPath_cong :
    ∀ (segs : List String) (o₁ o₂ : List (String × JsVal)) (last : String) (leaf : JsVal),
      wfFields o₁ = true → wfVal leaf = true → objEquiv o₁ o₂ = true →
      exceptEquiv (setPath o₁ segs last leaf) (setPath o₂ segs last leaf) = true
  | [], o₁, o₂, last, leaf, hw, hl, heq =>
    assocSet_cong o₁ o₂ last leaf leaf hw hl heq (jsEquiv_refl leaf hl)
  | f :: rest, o₁, o₂, last, leaf, hw, hl, heq => by
    rcases objEquiv_lookup o₁ o₂ heq f with ⟨hn₁, hn₂⟩ | ⟨v, w, hv, hw₂, hvw⟩
    · rw [setPath_cons_none o₁ f rest last leaf hn₁, setPath_cons_none o₂ f rest last leaf hn₂]
      rcases hr : setPath [] rest last leaf with e | r'
      · rw [exmap_err, exmap_err]
        rfl
      · rw [exmap_ok, exmap_ok]
        have hwr : wfFields r' = true := setPath_wf rest [] last leaf r' rfl hl hr
        exact assocSet_cong o₁ o₂ f (.obj r') (.obj r') hw hwr heq (jsEquiv_refl (.obj r') hwr)
    · by_cases hobj : ∃ l, v = JsVal.obj l
      · obtain ⟨l₁, rfl⟩ := hobj
        cases w with
        | obj l₂ =>
          rw [setPath_cons_obj o₁ f rest l₁ last leaf hv,
            setPath_cons_obj o₂ f rest l₂ last leaf hw₂]
          have hwl₁ : wfFields l₁ = true := wfVal_assocGet o₁ f _ hw hv
          have hIH := setPath_cong rest l₁ l₂ last leaf hwl₁ hl
            (show objEquiv l₁ l₂ = true from hvw)
          rcases hr₁ : setPath l₁ rest last leaf with e₁ | r₁ <;>
            rcases hr₂ : setPath l₂ rest last leaf with e₂ | r₂ <;>
            rw [hr₁, hr₂] at hIH
          · rw [exmap_err, exmap_err]
            rfl
          · exact Bool.noConfusion hIH
          · exact Bool.noConfusion hIH
          · rw [exmap_ok, exmap_ok]
            have hwr₁ : wfFields r₁ = true := setPath_wf rest l₁ last leaf r₁ hwl₁ hl hr₁
            exact assocSet_cong o₁ o₂ f (.obj r₁) (.obj r₂) hw hwr₁ heq
              (show jsEquiv (.obj r₁) (.obj r₂) = true from hIH)
        | num n => exact Bool.noConfusion hvw
        | str s => exact Bool.noConfusion hvw
        | bool b => exact Bool.noConfusion hvw
        | null => exact Bool.noConfusion hvw
        | date ms => exact Bool.noConfusion hvw
        | arr elems => exact Bool.noConfusion hvw
      · push_neg at hobj
        obtain ⟨e₁, he₁⟩ := setPath_cons_notobj o₁ f rest last leaf v hv hobj
        obtain ⟨e₂, he₂⟩ := setPath_cons_notobj o₂ f rest last leaf w hw₂
          (jsEquiv_not_obj v w hvw hobj)
        rw [he₁, he₂]
        rfl

/-- Separation of two full key paths: neither is an initial run of the
other (at the first differing position the segment names differ). -/
def pathSep : List String → List String → Bool
  | [], _ => false
  | _, [] => false
  | k₁ :: t₁, k₂ :: t₂ => decide ¬ (k₁ = k₂) || pathSep t₁ t₂

/-- Nothing separates from an empty path. -/
theorem pathSep_nil_right : ∀ p, pathSep p [] = false := by
  intro p
  cases p <;> rfl

/-- Walks along separated paths commute up to attribute order. -/
theorem setPath_comm :
    ∀ (segs₁ segs₂ : List String) (o : List (String × JsVal)) (last₁ last₂ : String)
      (leaf₁ leaf₂ : JsVal),
      wfFields o = true → wfVal leaf₁ = true → wfVal leaf₂ = true →
      pathSep (segs₁ ++ [last₁]) (segs₂ ++ [last₂]) = true →
      exceptEquiv
        (setPath o segs₁ last₁ leaf₁ >>= fun r => setPath r segs₂ last₂ leaf₂)
        (setPath o segs₂ last₂ leaf₂ >>= fun r => setPath r segs₁ last₁ leaf₁) = true
  | [], [], o, last₁, last₂, leaf₁, leaf₂, hw, hl₁, hl₂, hsep => by
    have hne : ¬ last₁ = last₂ := by simpa [pathSep] using hsep
    exact assocSet_comm_ne o last₁ last₂ leaf₁ leaf₂ hne hw hl₁ hl₂
  | [], f₂ :: r₂, o, last₁, last₂, leaf₁, leaf₂, hw, hl₁, hl₂, hsep => by
    have hne : ¬ last₁ = f₂ := by
      have h := hsep
      simp only [List.nil_append, List.cons_append] at h
      rw [show pathSep [last₁] (f₂ :: (r₂ ++ [last₂])) =
        (decide ¬ (last₁ = f₂) || pathSep [] (r₂ ++ [last₂])) from rfl] at h
      simpa [pathSep] using h
    show exceptEquiv
      (setPath (assocSet o last₁ leaf₁) (f₂ :: r₂) last₂ leaf₂)
      (setPath o (f₂ :: r₂) last₂ leaf₂ >>= fun r => setPath r [] last₁ leaf₁) = true
    rcases hsub : subAt o f₂ with _ | l₂
    · obtain ⟨e₂, h₂⟩ := setPath_cons_noSub o f₂ r₂ last₂ leaf₂ hsub
      obtain ⟨e₁, h₁⟩ := setPath_cons_noSub (assocSet o last₁ leaf₁) f₂ r₂ last₂ leaf₂
        (by rw [subAt_assocSet_ne o f₂ last₁ leaf₁ hne]; exact hsub)
      rw [h₂, exbind_err, h₁]
      rfl
    · rw [setPath_cons_sub (assocSet o last₁ leaf₁) f₂ r₂ last₂ leaf₂ l₂
        (by rw [subAt_assocSet_ne o f₂ last₁ leaf₁ hne]; exact hsub),
        setPath_cons_sub o f₂ r₂ last₂ leaf₂ l₂ hsub]
      rcases hr : setPath l₂ r₂ last₂ leaf₂ with e | b₂
      · rw [exmap_err, exmap_err, exbind_err]
        rfl
      · simp only [exmap_ok, exbind_ok]
        have hwb : wfFields b₂ = true :=
          setPath_wf r₂ l₂ last₂ leaf₂ b₂ (subAt_wf o f₂ l₂ hw hsub) hl₂ hr
        exact assocSet_comm_ne o last₁ f₂ leaf₁ (.obj b₂) hne hw hl₁ hwb
  | f₁ :: r₁, [], o, last₁, last₂, leaf₁, leaf₂, hw, hl₁, hl₂, hsep => by
    have hne : ¬ f₁ = last₂ := by
      have h := hsep
      simp only [List.nil_append, List.cons_append] at h
      rw [show pathSep (f₁ :: (r₁ ++ [last₁])) [last₂] =
        (decide ¬ (f₁ = last₂) || pathSep (r₁ ++ [last₁]) []) from rfl,
        pathSep_nil_right] at h
      simpa using h
    show exceptEquiv
      (setPath o (f₁ :: r₁) last₁ leaf₁ >>= fun r => setPath r [] last₂ leaf₂)
      (setPath (assocSet o last₂ leaf₂) (f₁ :: r₁) last₁ leaf₁) = true
    rcases hsub : subAt o f₁ with _ | l₁
    · obtain ⟨e₁, h₁⟩ := setPath_cons_noSub o f₁ r₁ last₁ leaf₁ hsub
      obtain ⟨e₂, h₂⟩ := setPath_cons_noSub (assocSet o last₂ leaf₂) f₁ r₁ last₁ leaf₁
        (by rw [subAt_assocSet_ne o f₁ last₂ leaf₂ (fun hh => hne hh.symm)]; exact hsub)
      rw [h₁, exbind_err, h₂]
      rfl
    · rw [setPath_cons_sub o f₁ r₁ last₁ leaf₁ l₁ hsub,
        setPath_cons_sub (assocSet o last₂ leaf₂) f₁ r₁ last₁ leaf₁ l₁
          (by rw [subAt_assocSet_ne o f₁ last₂ leaf₂ (fun hh => hne hh.symm)]; exact hsub)]
      rcases hr : setPath l₁ r₁ last₁ leaf₁ with e | a₁
      · rw [exmap_err, exmap_err, exbind_err]
        rfl
      · simp only [exmap_ok, exbind_ok]
        have hwa : wfFields a₁ = true :=
          setPath_wf r₁ l₁ last₁ leaf₁ a₁ (subAt_wf o f₁ l₁ hw hsub) hl₁ hr
        exact assocSet_comm_ne o f₁ last₂ (.obj a₁) leaf₂ hne hw hwa hl₂
  | f₁ :: r₁, f₂ :: r₂, o, last₁, last₂, leaf₁, leaf₂, hw, hl₁, hl₂, hsep => by
    by_cases hf : f₁ = f₂
    · subst hf
      have hsep2 : pathSep (r₁ ++ [last₁]) (r₂ ++ [last₂]) = true := by
        have h := hsep
        simp only [List.cons_append] at h
        rw [show pathSep (f₁ :: (r₁ ++ [last₁])) (f₁ :: (r₂ ++ [last₂])) =
          (decide ¬ (f₁ = f₁) || pathSep (r₁ ++ [last₁]) (r₂ ++ [last₂])) from rfl] at h
        simpa using h
      rcases hsub : subAt o f₁ with _ | l
      · obtain ⟨e₁, h₁⟩ := setPath_cons_noSub o f₁ r₁ last₁ leaf₁ hsub
        obtain ⟨e₂, h₂⟩ := setPath_cons_noSub o f₁ r₂ last₂ leaf₂ hsub
        rw [h₁, h₂, exbind_err, exbind_err]
        rfl
      · have hwl : wfFields l = true := subAt_wf o f₁ l hw hsub
        have hIH := setPath_comm r₁ r₂ l last₁ last₂ leaf₁ leaf₂ hwl hl₁ hl₂ hsep2
        rw [setPath_cons_sub o f₁ r₁ last₁ leaf₁ l hsub,
          setPath_cons_sub o f₁ r₂ last₂ leaf₂ l hsub]
        rcases hr₁ : setPath l r₁ last₁ leaf₁ with e₁ | a₁
        · rw [hr₁, exbind_err] at hIH
          rw [exmap_err, exbind_err]
          rcases hr₂ : setPath l r₂ last₂ leaf₂ with e₂ | b₂
          · rw [exmap_err, exbind_err]
            rfl
          · rw [hr₂] at hIH
            simp only [exmap_ok, exbind_ok]
            simp only [exbind_ok] at hIH
            rw [setPath_cons_sub (assocSet o f₁ (.obj b₂)) f₁ r₁ last₁ leaf₁ b₂
              (subAt_assocSet_self o f₁ b₂)]
            rcases hr₃ : setPath b₂ r₁ last₁ leaf₁ with e₃ | c
            · rw [exmap_err]
              rfl
            · rw [hr₃] at hIH
              exact Bool.noConfusion hIH
        · rw [hr₁] at hIH
          simp only [exbind_ok] at hIH
          simp only [exmap_ok, exbind_ok]
          rw [setPath_cons_sub (assocSet o f₁ (.obj a₁)) f₁ r₂ last₂ leaf₂ a₁
            (subAt_assocSet_self o f₁ a₁)]
          rcases hr₂ : setPath l r₂ last₂ leaf₂ with e₂ | b₂
          · rw [hr₂, exbind_err] at hIH
            rw [exmap_err, exbind_err]
            rcases hr₃ : setPath a₁ r₂ last₂ leaf₂ with e₃ | c
            · rw [exmap_err]
              rfl
            · rw [hr₃] at hIH
              exact Bool.noConfusion hIH
          · rw [hr₂] at hIH
            simp only [exmap_ok, exbind_ok]
            simp only [exbind_ok] at hIH
            rw [setPath_cons_sub (assocSet o f₁ (.obj b₂)) f₁ r₁ last₁ leaf₁ b₂
              (subAt_assocSet_self o f₁ b₂)]
            rcases hr₃ : setPath a₁ r₂ last₂ leaf₂ with e₃ | c₁
            · rw [hr₃] at hIH
              rcases hr₄ : setPath b₂ r₁ last₁ leaf₁ with e₄ | c₂
              · rw [exmap_err, exmap_err]
                rfl
              · rw [hr₄] at hIH
                exact Bool.noConfusion hIH
            · rw [hr₃] at hIH
              rcases hr₄ : setPath b₂ r₁ last₁ leaf₁ with e₄ | c₂
              · rw [hr₄] at hIH
                exact Bool.noConfusion hIH
              · rw [hr₄] at hIH
                rw [exmap_ok, exmap_ok, assocSet_assocSet, assocSet_assocSet]
                have hwa : wfFields a₁ = true :=
                  setPath_wf r₁ l last₁ leaf₁ a₁ hwl hl₁ hr₁
                have hwc₁ : wfFields c₁ = true :=
                  setPath_wf r₂ a₁ last₂ leaf₂ c₁ hwa hl₂ hr₃
                exact assocSet_cong o o f₁ (.obj c₁) (.obj c₂) hw hwc₁
                  (objEquiv_refl o hw) (show jsEquiv (.obj c₁) (.obj c₂) = true from hIH)
    · rcases hsub₁ : subAt o f₁ with _ | l₁
      · obtain ⟨e₁, h₁⟩ := setPath_cons_noSub o f₁ r₁ last₁ leaf₁ hsub₁
        rw [h₁, exbind_err]
        rcases hsub₂ : subAt o f₂ with _ | l₂
        · obtain ⟨e₂, h₂⟩ := setPath_cons_noSub o f₂ r₂ last₂ leaf₂ hsub₂
          rw [h₂, exbind_err]
          rfl
        · rw [setPath_cons_sub o f₂ r₂ last₂ leaf₂ l₂ hsub₂]
          rcases hr₂ : setPath l₂ r₂ last₂ leaf₂ with e₂ | b₂
          · rw [exmap_err, exbind_err]
            rfl
          · simp only [exmap_ok, exbind_ok]
            obtain ⟨e₃, h₃⟩ := setPath_cons_noSub (assocSet o f₂ (.obj b₂)) f₁ r₁ last₁ leaf₁
              (by rw [subAt_assocSet_ne o f₁ f₂ _ (fun hh => hf hh.symm)]; exact hsub₁)
            rw [h₃]
            rfl
      · rw [setPath_cons_sub o f₁ r₁ last₁ leaf₁ l₁ hsub₁]
        rcases hsub₂ : subAt o f₂ with _ | l₂
        · obtain ⟨e₂, h₂⟩ := setPath_cons_noSub o f₂ r₂ last₂ leaf₂ hsub₂
          rw [h₂, exbind_err]
          rcases hr₁ : setPath l₁ r₁ last₁ leaf₁ with e₁ | a₁
          · rw [exmap_err, exbind_err]
            rfl
          · simp only [exmap_ok, exbind_ok]
            obtain ⟨e₃, h₃⟩ := setPath_cons_noSub (assocSet o f₁ (.obj a₁)) f₂ r₂ last₂ leaf₂
              (by rw [subAt_assocSet_ne o f₂ f₁ _ hf]; exact hsub₂)
            rw [h₃]
            rfl
        · rw [setPath_cons_sub o f₂ r₂ last₂ leaf₂ l₂ hsub₂]
          rcases hr₁ : setPath l₁ r₁ last₁ leaf₁ with e₁ | a₁
          · rw [exmap_err, exbind_err]
            rcases hr₂ : setPath l₂ r₂ last₂ leaf₂ with e₂ | b₂
            · rw [exmap_err, exbind_err]
              rfl
            · simp only [exmap_ok, exbind_ok]
              rw [setPath_cons_sub (assocSet o f₂ (.obj b₂)) f₁ r₁ last₁ leaf₁ l₁
                (by rw [subAt_assocSet_ne o f₁ f₂ _ (fun hh => hf hh.symm)]; exact hsub₁),
                hr₁, exmap_err]
              rfl
          · rcases hr₂ : setPath l₂ r₂ last₂ leaf₂ with e₂ | b₂
            · rw [exmap_err, exbind_err]
              simp only [exmap_ok, exbind_ok]
              rw [setPath_cons_sub (assocSet o f₁ (.obj a₁)) f₂ r₂ last₂ leaf₂ l₂
                (by rw [subAt_assocSet_ne o f₂ f₁ _ hf]; exact hsub₂),
                hr₂, exmap_err]
              rfl
            · simp only [exmap_ok, exbind_ok]
              rw [setPath_cons_sub (assocSet o f₁ (.obj a₁)) f₂ r₂ last₂ leaf₂ l₂
                (by rw [subAt_assocSet_ne o f₂ f₁ _ hf]; exact hsub₂),
                setPath_cons_sub (assocSet o f₂ (.obj b₂)) f₁ r₁ last₁ leaf₁ l₁
                (by rw [subAt_assocSet_ne o f₁ f₂ _ (fun hh => hf hh.symm)]; exact hsub₁),
                hr₁, hr₂, exmap_ok, exmap_ok]
              have hwa : wfFields a₁ = true :=
                setPath_wf r₁ l₁ last₁ leaf₁ a₁ (subAt_wf o f₁ l₁ hw hsub₁) hl₁ hr₁
              have hwb : wfFields b₂ = true :=
                setPath_wf r₂ l₂ last₂ leaf₂ b₂ (subAt_wf o f₂ l₂ hw hsub₂) hl₂ hr₂
              exact assocSet_comm_ne o f₁ f₂ (.obj a₁) (.obj b₂) hf hw hwa hwb

/- ### Separation of the flattened keys -/

/-- An empty path separates from nothing. -/
theorem pathSep_nil_left : ∀ q, pathSep [] q = false := by
  intro q
  cases q <;> rfl

/-- Path separation is symmetric. -/
theorem pathSep_symm : ∀ (p q : List String), pathSep p q = true → pathSep q p = true
  | [], q, h =>
    absurd h (by rw [pathSep_nil_left]; exact Bool.false_ne_true)
  | p₀ :: pt, [], h =>
    absurd h (by rw [pathSep_nil_right]; exact Bool.false_ne_true)
  | k₁ :: t₁, k₂ :: t₂, h => by
    have h' : (decide ¬ (k₁ = k₂) || pathSep t₁ t₂) = true := h
    show (decide ¬ (k₂ = k₁) || pathSep t₂ t₁) = true
    rcases Bool.or_eq_true_iff.mp h' with h1 | h2
    · have hne : ¬ (k₂ = k₁) := fun hh => (of_decide_eq_true h1) hh.symm
      rw [Bool.or_eq_true_iff]
      exact Or.inl (decide_eq_true hne)
    · rw [Bool.or_eq_true_iff]
      exact Or.inr (pathSep_symm t₁ t₂ h2)

/-- Path separation is preserved under a common leading run. -/
theorem pathSep_append_left : ∀ (P x y : List String), pathSep x y = true →
    pathSep (P ++ x) (P ++ y) = true
  | [], x, y, h => h
  | a :: P, x, y, h => by
    show (decide ¬ (a = a) || pathSep (P ++ x) (P ++ y)) = true
    rw [pathSep_append_left P x y h]
    simp

/-- No path separates from itself. -/
theorem pathSep_irrefl : ∀ (p : List String), pathSep p p = false
  | [] => rfl
  | k :: t => by
    show (decide ¬ (k = k) || pathSep t t) = false
    rw [pathSep_irrefl t]
    simp

/-- Separation of two full keys: their post-root segment runs are mutually
non-initial. -/
def keySep (a b : String) : Bool :=
  pathSep ((splitDot a).drop 1) ((splitDot b).drop 1)

/-- Key separation is symmetric. -/
theorem keySep_symm (a b : String) (h : keySep a b = true) : keySep b a = true :=
  pathSep_symm _ _ h

/-- Separated keys are distinct. -/
theorem keySep_ne (a b : String) (h : keySep a b = true) : a ≠ b := by
  intro hh
  subst hh
  simp only [keySep] at h
  rw [pathSep_irrefl] at h
  exact Bool.noConfusion h

/-- With pairwise-distinct keys, every member pair of an association list is
found by lookup. -/
theorem assocGet_of_mem_ne {β : Type} :
    ∀ (l : List (String × β)) (kv : String × β),
      (l.map Prod.fst).Pairwise (fun a b => a ≠ b) → kv ∈ l → assocGet l kv.1 = some kv.2
  | [], kv, _, h => absurd h (List.not_mem_nil kv)
  | (k', v') :: rest, kv, hp, h => by
    rw [List.map_cons, List.pairwise_cons] at hp
    rcases List.mem_cons.mp h with rfl | hmem
    · rw [assocGet, if_pos rfl]
    · have hne : ¬ k' = kv.1 := hp.1 kv.1 (List.mem_map_of_mem Prod.fst hmem)
      rw [assocGet, if_neg hne]
      exact assocGet_of_mem_ne rest kv hp.2 hmem

/- ### Well-formedness of the decoded leaves -/

/-- A member of a converted JSON object comes from a member of the JSON
object. -/
theorem mem_jsonFieldsToJsVal :
    ∀ (l : List (String × Json)) (kv : String × JsVal), kv ∈ jsonFieldsToJsVal l →
      ∃ j, (kv.1, j) ∈ l ∧ kv.2 = jsonToJsVal j
  | [], kv, h => absurd h (List.not_mem_nil kv)
  | (k, j) :: rest, kv, h => by
    rcases List.mem_cons.mp h with rfl | h
    · exact ⟨j, List.mem_cons_self _ _, rfl⟩
    · rcases mem_jsonFieldsToJsVal rest kv h with ⟨jj, hmem, heq⟩
      exact ⟨jj, List.mem_cons_of_mem _ hmem, heq⟩

mutual

/-- The runtime value of well-formed JSON is well-formed. -/
theorem wfVal_jsonToJsVal : ∀ (j : Json), wfJson j = true → wfVal (jsonToJsVal j) = true
  | .jnum n, _ => rfl
  | .jstr s, _ => rfl
  | .jbool b, _ => rfl
  | .jnull, _ => rfl
  | .jarr elems, h => wfValList_jsonListToJsVal elems h
  | .jobj fields, h => wfFields_jsonFieldsToJsVal fields h

/-- Element-wise runtime well-formedness of a converted JSON array. -/
theorem wfValList_jsonListToJsVal : ∀ (l : List Json), wfJsonList l = true →
    wfValList (jsonListToJsVal l) = true
  | [], _ => rfl
  | j :: rest, h => by
    have h' := Bool.and_eq_true_iff.mp (show (wfJson j && wfJsonList rest) = true from h)
    show (wfVal (jsonToJsVal j) && wfValList (jsonListToJsVal rest)) = true
    rw [wfVal_jsonToJsVal j h'.1, wfValList_jsonListToJsVal rest h'.2]
    rfl

/-- Member-wise runtime well-formedness of a converted JSON object. -/
theorem wfFields_jsonFieldsToJsVal : ∀ (l : List (String × Json)), wfJsonFields l = true →
    wfFields (jsonFieldsToJsVal l) = true
  | [], _ => rfl
  | (k, j) :: rest, h => by
    simp only [wfJsonFields, Bool.and_eq_true, List.all_eq_true, decide_eq_true_eq] at h
    show wfFields ((k, jsonToJsVal j) :: jsonFieldsToJsVal rest) = true
    simp only [wfFields, Bool.and_eq_true, List.all_eq_true, decide_eq_true_eq]
    refine ⟨⟨?_, wfVal_jsonToJsVal j h.1.2⟩, wfFields_jsonFieldsToJsVal rest h.2⟩
    intro kv hkv
    rcases mem_jsonFieldsToJsVal rest kv hkv with ⟨jj, hmem, _⟩
    exact h.1.1 (kv.1, jj) hmem

end

/-- A JSON list whose every element is well-formed is well-formed. -/
theorem wfJsonList_of_all : ∀ (l : List Json), l.all wfJson = true → wfJsonList l = true
  | [], _ => rfl
  | j :: rest, h => by
    simp only [List.all_cons, Bool.and_eq_true] at h
    show (wfJson j && wfJsonList rest) = true
    rw [h.1, wfJsonList_of_all rest h.2]
    rfl

/-- A `{value, timestamp}` leaf object around a well-formed value is
well-formed. -/
theorem wfVal_leaf_pair (V : JsVal) (ts : Int) (hV : wfVal V = true) :
    wfVal (.obj [("value", V), ("timestamp", .date ts)]) = true := by
  show wfFields [("value", V), ("timestamp", JsVal.date ts)] = true
  simp only [wfFields, wfVal, List.all_cons, List.all_nil, Bool.and_true, Bool.true_and, hV]
  rfl

mutual

/-- Every entry flattened from a good value decodes to a well-formed leaf
object. -/
theorem flattenInsert_entry_wf (ts : Int) :
    ∀ (v : Value) (f : String), goodValue f v = true →
      ∀ kv ∈ flattenInsert f v ts, wfVal (leafFor kv.2) = true
  | .num x, f, _, kv, hmem => by
    simp only [flattenInsert] at hmem
    split at hmem
    · cases hmem
    · rcases List.mem_singleton.mp hmem with rfl
      exact wfVal_leaf_pair _ ts rfl
  | .str s, f, _, kv, hmem => by
    simp only [flattenInsert] at hmem
    split at hmem
    · cases hmem
    · split at hmem
      · cases hmem
      · rcases List.mem_singleton.mp hmem with rfl
        exact wfVal_leaf_pair _ ts rfl
  | .bool b, f, _, kv, hmem => by
    simp only [flattenInsert] at hmem
    split at hmem
    · cases hmem
    · rcases List.mem_singleton.mp hmem with rfl
      exact wfVal_leaf_pair _ ts rfl
  | .date ms, f, _, kv, hmem => by
    simp only [flattenInsert] at hmem
    split at hmem
    · cases hmem
    · rcases List.mem_singleton.mp hmem with rfl
      exact wfVal_leaf_pair _ ts rfl
  | .arr elems, f, hg, kv, hmem => by
    simp only [goodValue, Bool.and_eq_true] at hg
    simp only [flattenInsert] at hmem
    split at hmem
    · cases hmem
    · split at hmem
      · cases hmem
      · rcases List.mem_singleton.mp hmem with rfl
        exact wfVal_leaf_pair _ ts
          (wfValList_jsonListToJsVal elems (wfJsonList_of_all elems hg.2))
  | .obj kvs, f, hg, kv, hmem => by
    simp only [goodValue, Bool.and_eq_true] at hg
    simp only [flattenInsert] at hmem
    split at hmem
    · cases hmem
    · exact flattenFields_entry_wf ts kvs f hg.2 kv hmem
  | .nan, f, hg, kv, hmem => by
    simp only [goodValue] at hg
    exact Bool.noConfusion hg
  | .null, f, hg, kv, hmem => by
    simp only [goodValue] at hg
    exact Bool.noConfusion hg
  | .undef, f, hg, kv, hmem => by
    simp only [goodValue] at hg
    exact Bool.noConfusion hg

/-- Every entry flattened from good members decodes to a well-formed leaf
object. -/
theorem flattenFields_entry_wf (ts : Int) :
    ∀ (kvs : List (String × Value)) (b : String), goodFields b kvs = true →
      ∀ kv ∈ flattenFields b kvs ts, wfVal (leafFor kv.2) = true
  | [], b, _, kv, hmem => absurd hmem (List.not_mem_nil kv)
  | (k₀, v₀) :: rest, b, hg, kv, hmem => by
    simp only [goodFields, Bool.and_eq_true, decide_eq_true_eq, List.all_eq_true] at hg
    rcases List.mem_append.mp hmem with hmem | hmem
    · exact flattenInsert_entry_wf ts v₀ (b ++ "." ++ k₀) hg.1.2 kv hmem
    · exact flattenFields_entry_wf ts rest b hg.2 kv hmem

end

/-- Every key flattened from an object's members extends the base path by a
segment run headed by the generating member's name. -/
theorem flattenFields_key_head (ts : Int) :
    ∀ (kvs : List (String × Value)) (b : String), goodFields b kvs = true →
      ∀ kv ∈ flattenFields b kvs ts, ∃ k₀ v₀ t, (k₀, v₀) ∈ kvs ∧
        splitDot kv.1 = splitDot b ++ k₀ :: t
  | [], b, _, kv, hmem => absurd hmem (List.not_mem_nil kv)
  | (k₀, v₀) :: rest, b, hg, kv, hmem => by
    simp only [goodFields, Bool.and_eq_true, decide_eq_true_eq, List.all_eq_true] at hg
    rcases List.mem_append.mp hmem with hmem | hmem
    · rcases flattenInsert_key_shape ts v₀ (b ++ "." ++ k₀) hg.1.2 kv hmem with ⟨t, hsplit⟩
      refine ⟨k₀, v₀, t, List.mem_cons_self _ _, ?_⟩
      rw [hsplit, splitDot_append b k₀ hg.1.1.1, List.append_assoc]
      rfl
    · rcases flattenFields_key_head ts rest b hg.2 kv hmem with ⟨k₁, v₁, t, hmem₁, hsplit⟩
      exact ⟨k₁, v₁, t, List.mem_cons_of_mem _ hmem₁, hsplit⟩

mutual

/-- The keys flattened from one good value are pairwise separated. -/
theorem flattenInsert_sep (ts : Int) :
    ∀ (v : Value) (f : String) (P : List String), goodValue f v = true →
      splitDot f = "" :: P →
      List.Pairwise (fun a b => keySep a b = true) ((flattenInsert f v ts).map Prod.fst)
  | .num x, f, P, _, _ => by
    simp only [flattenInsert]
    split
    · exact List.Pairwise.nil
    · simp
  | .str s, f, P, _, _ => by
    simp only [flattenInsert]
    split
    · exact List.Pairwise.nil
    · split
      · exact List.Pairwise.nil
      · simp
  | .bool b, f, P, _, _ => by
    simp only [flattenInsert]
    split
    · exact List.Pairwise.nil
    · simp
  | .date ms, f, P, _, _ => by
    simp only [flattenInsert]
    split
    · exact List.Pairwise.nil
    · simp
  | .arr elems, f, P, _, _ => by
    simp only [flattenInsert]
    split
    · exact List.Pairwise.nil
    · split
      · exact List.Pairwise.nil
      · simp
  | .obj kvs, f, P, hg, hf => by
    simp only [goodValue, Bool.and_eq_true] at hg
    simp only [flattenInsert]
    split
    · exact List.Pairwise.nil
    · exact flattenFields_sep ts kvs f P hg.2 hf
  | .nan, f, P, hg, _ => by
    simp only [goodValue] at hg
    exact Bool.noConfusion hg
  | .null, f, P, hg, _ => by
    simp only [goodValue] at hg
    exact Bool.noConfusion hg
  | .undef, f, P, hg, _ => by
    simp only [goodValue] at hg
    exact Bool.noConfusion hg

/-- The keys flattened from good members are pairwise separated. -/
theorem flattenFields_sep (ts : Int) :
    ∀ (kvs : List (String × Value)) (b : String) (P : List String), goodFields b kvs = true →
      splitDot b = "" :: P →
      List.Pairwise (fun a b => keySep a b = true) ((flattenFields b kvs ts).map Prod.fst)
  | [], b, P, _, _ => List.Pairwise.nil
  | (k₀, v₀) :: rest, b, P, hg, hb => by
    simp only [goodFields, Bool.and_eq_true, decide_eq_true_eq, List.all_eq_true] at hg
    show List.Pairwise _
      ((flattenInsert (b ++ "." ++ k₀) v₀ ts ++ flattenFields b rest ts).map Prod.fst)
    rw [List.map_append, List.pairwise_append]
    refine ⟨?_, ?_, ?_⟩
    · exact flattenInsert_sep ts v₀ (b ++ "." ++ k₀) (P ++ [k₀]) hg.1.2
        (by rw [splitDot_append b k₀ hg.1.1.1, hb]; rfl)
    · exact flattenFields_sep ts rest b P hg.2 hb
    · intro a ha b' hb'
      rcases List.mem_map.mp ha with ⟨kva, hkva, rfl⟩
      rcases List.mem_map.mp hb' with ⟨kvb, hkvb, rfl⟩
      rcases flattenInsert_key_shape ts v₀ (b ++ "." ++ k₀) hg.1.2 kva hkva with ⟨t, hsa⟩
      rcases flattenFields_key_head ts rest b hg.2 kvb hkvb with ⟨k₁, v₁, t', hmem₁, hsb⟩
      have hne : ¬ k₀ = k₁ := fun hh => (hg.1.1.2 (k₁, v₁) hmem₁) hh.symm
      have hsa' : splitDot kva.1 = "" :: (P ++ k₀ :: t) := by
        rw [hsa, splitDot_append b k₀ hg.1.1.1, hb]
        simp
      have hsb' : splitDot kvb.1 = "" :: (P ++ k₁ :: t') := by
        rw [hsb, hb]
        rfl
      simp only [keySep, hsa', hsb']
      show pathSep (P ++ k₀ :: t) (P ++ k₁ :: t') = true
      apply pathSep_append_left
      show (decide ¬ (k₀ = k₁) || pathSep t t') = true
      rw [Bool.or_eq_true_iff]
      exact Or.inl (decide_eq_true hne)

end

/- ### Folding the sorted keys: invariance under permutation -/

/-- Bind over the unflatten outcomes is associative. -/
theorem exbind_assoc2 (x : Except Err (List (String × JsVal)))
    (f g : List (String × JsVal) → Except Err (List (String × JsVal))) :
    (x >>= fun a => f a >>= g) = ((x >>= f) >>= g) := by
  cases x <;> rfl

/-- A key the fold can process: present in the mapping, splitting into a
rooted run with at least one segment, with a well-formed decoded leaf. -/
def goodKey (m : List (String × MapEntry)) (key : String) : Prop :=
  ∃ e p k, assocGet m key = some e ∧ splitDot key = "" :: p ++ [k] ∧
    wfVal (leafFor e) = true

/-- The key fold is a congruence for state equivalence. -/
theorem foldConvert_cong (m : List (String × MapEntry)) :
    ∀ (keys : List String) (o₁ o₂ : List (String × JsVal)),
      wfFields o₁ = true → (∀ key ∈ keys, goodKey m key) → objEquiv o₁ o₂ = true →
      exceptEquiv (List.foldlM (convertStep m) o₁ keys)
        (List.foldlM (convertStep m) o₂ keys) = true
  | [], o₁, o₂, _, _, heq => heq
  | key :: keys, o₁, o₂, hw, hks, heq => by
    rcases hks key (List.mem_cons_self _ _) with ⟨e, p, k, hm, hsplit, hwl⟩
    rw [List.foldlM_cons, List.foldlM_cons,
      convertStep_eq_setPath m o₁ key e p k hm hsplit,
      convertStep_eq_setPath m o₂ key e p k hm hsplit]
    have hstep := setPath_cong p o₁ o₂ k (leafFor e) hw hwl heq
    rcases hr₁ : setPath o₁ p k (leafFor e) with e₁ | r₁ <;>
      rcases hr₂ : setPath o₂ p k (leafFor e) with e₂ | r₂ <;>
      rw [hr₁, hr₂] at hstep
    · rw [exbind_err, exbind_err]
      rfl
    · exact Bool.noConfusion hstep
    · exact Bool.noConfusion hstep
    · simp only [exbind_ok]
      exact foldConvert_cong m keys r₁ r₂ (setPath_wf p o₁ k (leafFor e) r₁ hw hwl hr₁)
        (fun key' hk => hks key' (List.mem_cons_of_mem _ hk)) hstep

/-- The key fold maps equivalent outcomes to equivalent outcomes. -/
theorem foldConvert_bindCong (m : List (String × MapEntry)) (keys : List String)
    (x y : Except Err (List (String × JsVal)))
    (hxy : exceptEquiv x y = true)
    (hwx : ∀ r, x = .ok r → wfFields r = true)
    (hks : ∀ key ∈ keys, goodKey m key) :
    exceptEquiv (x >>= fun o => List.foldlM (convertStep m) o keys)
      (y >>= fun o => List.foldlM (convertStep m) o keys) = true := by
  cases x with
  | error e₁ =>
    cases y with
    | error e₂ =>
      rw [exbind_err, exbind_err]
      rfl
    | ok r₂ => exact Bool.noConfusion hxy
  | ok r₁ =>
    cases y with
    | error e₂ => exact Bool.noConfusion hxy
    | ok r₂ =>
      simp only [exbind_ok]
      exact foldConvert_cong m keys r₁ r₂ (hwx r₁ rfl) hks hxy

/-- Folding the keys in any other order yields an equivalent outcome, as
long as the keys are good and pairwise separated. -/
theorem foldConvert_perm (m : List (String × MapEntry)) :
    ∀ {keys₁ keys₂ : List String}, keys₁.Perm keys₂ →
      ∀ (o : List (String × JsVal)), wfFields o = true →
      (∀ key ∈ keys₁, goodKey m key) →
      List.Pairwise (fun a b => keySep a b = true) keys₁ →
      exceptEquiv (List.foldlM (convertStep m) o keys₁)
        (List.foldlM (convertStep m) o keys₂) = true := by
  intro keys₁ keys₂ hperm
  induction hperm with
  | nil =>
    intro o hw _ _
    exact objEquiv_refl o hw
  | cons x p ih =>
    intro o hw hks hpw
    rcases hks x (List.mem_cons_self _ _) with ⟨e, pp, k, hm, hsplit, hwl⟩
    rw [List.foldlM_cons, List.foldlM_cons, convertStep_eq_setPath m o x e pp k hm hsplit]
    rcases hr : setPath o pp k (leafFor e) with e₁ | r
    · rw [exbind_err, exbind_err]
      rfl
    · simp only [exbind_ok]
      exact ih r (setPath_wf pp o k (leafFor e) r hw hwl hr)
        (fun key hk => hks key (List.mem_cons_of_mem _ hk)) (List.Pairwise.of_cons hpw)
  | swap x y l =>
    intro o hw hks hpw
    rcases hks y (List.mem_cons_self _ _) with ⟨e₁, p₁, k₁, hm₁, hs₁, hw₁⟩
    rcases hks x (List.mem_cons_of_mem _ (List.mem_cons_self _ _)) with
      ⟨e₂, p₂, k₂, hm₂, hs₂, hw₂⟩
    have hsepyx : keySep y x = true := (List.pairwise_cons.mp hpw).1 x (List.mem_cons_self _ _)
    have hsep' : pathSep (p₁ ++ [k₁]) (p₂ ++ [k₂]) = true := by
      have h := hsepyx
      simp only [keySep, hs₁, hs₂] at h
      exact h
    simp only [List.foldlM_cons]
    rw [exbind_assoc2 (convertStep m o y) (fun b => convertStep m b x)
        (fun b' => List.foldlM (convertStep m) b' l),
      exbind_assoc2 (convertStep m o x) (fun b => convertStep m b y)
        (fun b' => List.foldlM (convertStep m) b' l)]
    have hFx : (fun b => convertStep m b x) = fun b => setPath b p₂ k₂ (leafFor e₂) :=
      funext fun b => convertStep_eq_setPath m b x e₂ p₂ k₂ hm₂ hs₂
    have hFy : (fun b => convertStep m b y) = fun b => setPath b p₁ k₁ (leafFor e₁) :=
      funext fun b => convertStep_eq_setPath m b y e₁ p₁ k₁ hm₁ hs₁
    rw [convertStep_eq_setPath m o y e₁ p₁ k₁ hm₁ hs₁,
      convertStep_eq_setPath m o x e₂ p₂ k₂ hm₂ hs₂, hFx, hFy]
    apply foldConvert_bindCong
    · exact setPath_comm p₁ p₂ o k₁ k₂ (leafFor e₁) (leafFor e₂) hw hw₁ hw₂ hsep'
    · intro r hrr
      rcases hA : setPath o p₁ k₁ (leafFor e₁) with eA | rA
      · rw [hA, exbind_err] at hrr
        cases hrr
      · rw [hA] at hrr
        simp only [exbind_ok] at hrr
        exact setPath_wf p₂ rA k₂ (leafFor e₂) r
          (setPath_wf p₁ o k₁ (leafFor e₁) rA hw hw₁ hA) hw₂ hrr
    · exact fun key hk => hks key (List.mem_cons_of_mem _ (List.mem_cons_of_mem _ hk))
  | trans h₁ h₂ ih₁ ih₂ =>
    intro o hw hks hpw
    have hks₂ : ∀ key ∈ _, goodKey m key := fun key hk => hks key (h₁.symm.subset hk)
    have hpw₂ := (h₁.pairwise_iff fun hab => keySep_symm _ _ hab).mp hpw
    exact exceptEquiv_trans _ _ _ (ih₁ o hw hks hpw) (ih₂ o hw hks₂ hpw₂)

/- ### The amended round trip -/

/-- C5 (amended): for an object whose members (recursively) have distinct,
dot-free names, whose sub-objects are nonempty, and whose values are
supported primitives within the size bounds at paths within the field-size
bound, unflattening the observation set written by `insert` for that object
reproduces the object up to attribute insertion order, with each leaf
carrying its `{value, timestamp}` pair. -/
theorem flatten_unflatten_roundtrip (kvs : List (String × Value)) (ts : Int)
    (hg : goodFields "" kvs = true) :
    ∃ r, convertToObject (flattenFields "" kvs ts) = Except.ok (.obj r) ∧
      objEquiv (decorateFields kvs ts) r = true := by
  have hb : splitDot "" = "" :: ([] : List String) := rfl
  have hsep := flattenFields_sep ts kvs "" [] hg hb
  have hne : ((flattenFields "" kvs ts).map Prod.fst).Pairwise (fun a b => a ≠ b) :=
    hsep.imp fun hab => keySep_ne _ _ hab
  have hm : ∀ kv ∈ flattenFields "" kvs ts,
      assocGet (flattenFields "" kvs ts) kv.1 = some kv.2 :=
    fun kv hkv => assocGet_of_mem_ne _ kv hne hkv
  have hA := foldConvert_fields ts (flattenFields "" kvs ts) kvs "" [] [] [] hg hb rfl
    (fun kv _ => rfl) hm
  have hgood : ∀ key ∈ (flattenFields "" kvs ts).map Prod.fst,
      goodKey (flattenFields "" kvs ts) key := by
    intro key hkey
    rcases List.mem_map.mp hkey with ⟨kv, hkv, rfl⟩
    rcases flattenFields_key_head ts kvs "" hg kv hkv with ⟨k₀, v₀, t, _, hsplit⟩
    obtain ⟨q, last, hqt⟩ : ∃ q last, k₀ :: t = q ++ [last] :=
      ⟨(k₀ :: t).dropLast, (k₀ :: t).getLast (by simp),
        (List.dropLast_append_getLast (by simp)).symm⟩
    refine ⟨kv.2, q, last, hm kv hkv, ?_, flattenFields_entry_wf ts kvs "" hg kv hkv⟩
    rw [hsplit, hb, hqt]
    rfl
  have hperm := (List.perm_insertionSort (fun a b : String => strLe a b = true)
    ((flattenFields "" kvs ts).map Prod.fst)).symm
  have hcmp := foldConvert_perm (flattenFields "" kvs ts) hperm [] rfl hgood hsep
  rw [hA] at hcmp
  rcases hfold : List.foldlM (convertStep (flattenFields "" kvs ts)) []
      (List.insertionSort (fun a b : String => strLe a b = true)
        ((flattenFields "" kvs ts).map Prod.fst)) with e | r
  · rw [hfold] at hcmp
    exact Bool.noConfusion hcmp
  · rw [hfold] at hcmp
    refine ⟨r, ?_, hcmp⟩
    show (List.foldlM (convertStep (flattenFields "" kvs ts)) []
      (List.insertionSort (fun a b : String => strLe a b = true)
        ((flattenFields "" kvs ts).map Prod.fst)) >>=
          fun o => Except.ok (JsVal.obj o)) = Except.ok (.obj r)
    rw [hfold]
    rfl

/-- Closed instance of the amended round trip at a two-member object with a
nested sub-object. -/
theorem flatten_unflatten_roundtrip_witness :
    goodFields "" [("a", Value.num 1), ("b", Value.obj [("c", Value.bool true)])] = true ∧
    ∃ r, convertToObject (flattenFields ""
        [("a", Value.num 1), ("b", Value.obj [("c", Value.bool true)])] 5) =
        Except.ok (.obj r) ∧
      objEquiv (decorateFields
        [("a", Value.num 1), ("b", Value.obj [("c", Value.bool true)])] 5) r = true :=
  ⟨by decide, flatten_unflatten_roundtrip
    [("a", Value.num 1), ("b", Value.obj [("c", Value.bool true)])] 5 (by decide)⟩

end Tsdb